import Mathlib

/-!
Verification of the semantic-normalization / deduplication / idempotent-merge
core of the `phase_2 - transfer_to_era_db` pipeline.

Shallow embedding conventions:
* Python strings are modelled as `List Char` (`Str`); the few string
  operations used by the source (`strip`, `replace`, `startswith`, `split`,
  `lower`) are modelled character by character.
* Unicode canonical composition (`unicodedata.normalize('NFC', ·)`, an
  external library call) is an explicit function parameter `nfc` of the
  definitions that use it, constrained in theorems only by the properties the
  real NFC transformation has (it fixes ASCII strings, cannot introduce
  control characters, and stripping an NFC-normal string leaves it normal).
* Python numeric scalars are modelled as exact integers; numbers stored as
  text are handled by an exact decimal model of `float`/`str` round-tripping
  (`parseDec`/`renderDec`): CPython's `repr` of a float is its shortest
  round-tripping decimal, so canonicalization-idempotence is the same in the
  model and in CPython.  IEEE-754 precision loss on long literals is outside
  the model.
* `pandas`/`numpy` containers become lists; the MongoDB server becomes an
  explicit state record with find/insert/update modelled on association
  lists; `asyncio` concurrency becomes a small-step machine whose atomic
  actions are the maximal synchronous segments between `await` points.
-/

/-- Python strings, modelled as lists of characters. -/
abbrev Str := List Char

/-- Characters removed by Python `str.strip()` / matched by `\s`, restricted
to the ASCII range (tab, LF, VT, FF, CR, space). -/
def isWsChar (c : Char) : Bool :=
  (9 ≤ c.toNat ∧ c.toNat ≤ 13) ∨ c = ' '

/-- `str.strip()` from the left. -/
def trimL (s : Str) : Str := s.dropWhile isWsChar

/-- `str.strip()` from the right. -/
def trimR (s : Str) : Str := (s.reverse.dropWhile isWsChar).reverse

/-- Python `str.strip()`. -/
def pyStrip (s : Str) : Str := trimR (trimL s)

/-- `str(v).replace('\n', ' ').replace('\r', ' ').replace('\t', ' ')` from
`normalize_value` (each pattern is a single character, so the three
`replace` calls are one character map). -/
def cleanWS (s : Str) : Str :=
  s.map (fun c => if c = '\n' ∨ c = '\r' ∨ c = '\t' then ' ' else c)

/-- ASCII decimal digit test. -/
def isDigitChar (c : Char) : Bool := 48 ≤ c.toNat ∧ c.toNat ≤ 57

/-- The ASCII digit character for `n < 10`. -/
def digitChar (n : Nat) : Char := Char.ofNat (48 + n)

/-- Fuel-driven worker for `natDigs` (structural recursion keeps the
definition kernel-reducible; any fuel above the value works, see
`natDigsAux_congr`). -/
def natDigsAux : Nat → Nat → Str
  | 0, _ => []
  | fuel + 1, n =>
    if n < 10 then [digitChar n]
    else natDigsAux fuel (n / 10) ++ [digitChar (n % 10)]

/-- Decimal digits of a natural number, most significant first
(the digits of Python `str(int)`). -/
def natDigs (n : Nat) : Str := natDigsAux (n + 1) n

/-- Python `str` of an `int`. -/
def intStr (z : Int) : Str :=
  if z < 0 then '-' :: natDigs z.natAbs else natDigs z.natAbs

/-- Numeric value of a list of ASCII digits (most significant first). -/
def digsVal (s : Str) : Nat := s.foldl (fun a c => 10 * a + (c.toNat - 48)) 0

/-- Drop leading `'0'` characters. -/
def dropLeadZeros (s : Str) : Str := s.dropWhile (· = '0')

/-- Drop trailing `'0'` characters. -/
def dropTrailZeros (s : Str) : Str := (s.reverse.dropWhile (· = '0')).reverse

/-- Leading sign of a numeric literal: `'-'` sets the negative flag, `'+'` is
consumed, anything else is left in place. -/
def parseSign (s : Str) : Bool × Str :=
  match s with
  | [] => (false, [])
  | c :: r => if c = '-' then (true, r) else if c = '+' then (false, r) else (false, c :: r)

/-- The fragment of Python `float(literal)` exercised by this pipeline:
`[+-] digits [. digits]` with at least one digit and nothing left over
(exponents, `inf`/`nan`, underscores and non-ASCII digits are outside the
model).  Returns (negative?, integer digits, fraction digits). -/
def parseDec (s : Str) : Option (Bool × Str × Str) :=
  let sg := (parseSign s).1
  let r := (parseSign s).2
  let ip := r.takeWhile isDigitChar
  let r2 := r.dropWhile isDigitChar
  if r2 = [] then
    if ip = [] then none else some (sg, ip, [])
  else if r2.head? = some '.' then
    let r3 := r2.tail
    let fp := r3.takeWhile isDigitChar
    if r3.dropWhile isDigitChar = [] ∧ (ip ≠ [] ∨ fp ≠ []) then some (sg, ip, fp)
    else none
  else none

/-- `str(int(f)) if f.is_integer() else str(f)` on the exact decimal value
parsed by `parseDec`: an integral value prints as a plain integer
(truncation is exact there); otherwise the shortest decimal form is
produced (no leading zeros in the integer part, no trailing zeros in the
fraction), which is what CPython `str` prints for these values. -/
def renderDec (sg : Bool) (ip fp : Str) : Str :=
  if fp.all (· = '0') then
    intStr (if sg then -(digsVal ip : Int) else (digsVal ip : Int))
  else
    (if sg then ['-'] else []) ++
      (if dropLeadZeros ip = [] then ['0'] else dropLeadZeros ip) ++
      '.' :: dropTrailZeros fp

/-- The `try: f = float(clean_v); val_str = str(int(f)) if f.is_integer()
else str(f)` block of `normalize_value`; `none` models the `ValueError`
branch. -/
def pyCanon (s : Str) : Option Str :=
  (parseDec s).map fun t => renderDec t.1 t.2.1 t.2.2

/-- A raw spreadsheet cell scalar: null (`None`/`NaN`, for which `pd.isnull`
is true), an integer, or text.  Python float scalars are covered by the
text branch up to IEEE shortest-repr (see the file comment). -/
inductive RawScalar where
  | null
  | intV (n : Int)
  | strV (s : Str)
  deriving DecidableEq, Repr

/-- `normalize_value` from `__main__.py`, with the external
`unicodedata.normalize('NFC', ·)` passed in as `nfc`.

```
if pd.isnull(v) or v == "": return None
if isinstance(v, (int, float)):
    val_str = str(int(v)) if v == int(v) else str(v)
else:
    try:
        clean_v = str(v).replace('\n',' ').replace('\r',' ').replace('\t',' ').strip()
        f = float(clean_v)
        val_str = str(int(f)) if f.is_integer() else str(f)
    except (ValueError, TypeError):
        val_str = str(v).replace('\n',' ').replace('\r',' ').replace('\t',' ')
return unicodedata.normalize('NFC', val_str).strip()
```
-/
def normalize_value (nfc : Str → Str) : RawScalar → Option Str
  | .null => none
  | .intV n => some (pyStrip (nfc (intStr n)))
  | .strV s =>
    if s = [] then none
    else
      match pyCanon (pyStrip (cleanWS s)) with
      | some t => some (pyStrip (nfc t))
      | none => some (pyStrip (nfc (cleanWS s)))

/-- Feed a `normalize_value` result back in as a raw scalar (`None` is null,
a string is a string). -/
def reinject : Option Str → RawScalar
  | none => .null
  | some s => .strV s

/-- Python truthiness of a `normalize_value` result: `None` and `""` are
falsy and are dropped by every caller (`if not single_item: continue`). -/
def isTruthyOpt : Option Str → Bool
  | none => false
  | some s => s ≠ []

/-- Stand-in for `unicodedata.normalize('NFC', ·)` on inputs that NFC fixes
(every string used in concrete examples below is already NFC-normal). -/
def nfcId : Str → Str := id

/-- Characters a canonical numeric string may contain. -/
def isNumChar (c : Char) : Bool := isDigitChar c ∨ c = '-' ∨ c = '.'

/-- Strings made only of digits, `'-'` and `'.'`. -/
def isNumStr (s : Str) : Bool := s.all isNumChar

/-- No CR / LF / TAB characters (the characters `cleanWS` rewrites). -/
def noCRT (s : Str) : Bool := s.all (fun c => ¬(c = '\n' ∨ c = '\r' ∨ c = '\t'))

/-- All characters ASCII. -/
def isAsciiStr (s : Str) : Bool := s.all (fun c => c.toNat < 128)

-- ## Field splitter (`mango/spoon.py`, `process_field`)

/-- The identifier-prefix table hard-coded in `process_field`, in source
order.  The source sorts it by length descending before use, but both uses
(the `startswith` loop and the regex lookahead alternation) only ask whether
*any* prefix matches, so the order is semantically irrelevant and the list
is kept in source order. -/
def spoonPrefixes : List Str :=
  ["p_".toList, "w_".toList, "ex_".toList, "m_".toList, "m_vol_".toList,
   "i_".toList, "PO_".toList, "PO_PAG_".toList, "PAG_".toList, "VO_".toList,
   "e_".toList, "ac_".toList, "inst_".toList, "loc_".toList]

/-- `is_id_string`: does the (already stripped) element start with one of the
identifier prefixes?  Note: `startswith` is case-sensitive. -/
def isIdString (s : Str) : Bool := spoonPrefixes.any (fun p => p.isPrefixOf s)

/-- Does a known prefix appear right here, optionally after whitespace
(the `\s*(?=(?:prefixes))` part of the smart-split regex)? -/
def prefixFollows (s : Str) : Bool :=
  spoonPrefixes.any (fun p => p.isPrefixOf (s.dropWhile isWsChar))

/-- Fuel-driven worker for `splitSmart` (`re.split(delimiter\s*(?=prefix), ·)`):
scan left to right; at a position where the delimiter occurs and a known
prefix follows (after optional whitespace), cut, consuming the delimiter and
that whitespace; otherwise keep the character.  `acc` is the current piece,
reversed. -/
def splitSmartGoF (d : Str) : Nat → Str → Str → List Str
  | 0, acc, _ => [acc.reverse]
  | _ + 1, acc, [] => [acc.reverse]
  | fuel + 1, acc, c :: rest =>
    if d ≠ [] ∧ d.isPrefixOf (c :: rest) ∧ prefixFollows (List.drop d.length (c :: rest))
    then acc.reverse :: splitSmartGoF d fuel []
        (List.dropWhile isWsChar (List.drop d.length (c :: rest)))
    else splitSmartGoF d fuel (c :: acc) rest

/-- The identifier-protecting split used for identifier-like elements. -/
def splitSmart (d s : Str) : List Str := splitSmartGoF d (s.length + 1) [] s

/-- Fuel-driven worker for `splitEvery` (Python `str.split(sep)`): cut at
every non-overlapping occurrence of the (non-empty) separator. -/
def splitEveryGoF (d : Str) : Nat → Str → Str → List Str
  | 0, acc, _ => [acc.reverse]
  | _ + 1, acc, [] => [acc.reverse]
  | fuel + 1, acc, c :: rest =>
    if d ≠ [] ∧ d.isPrefixOf (c :: rest)
    then acc.reverse :: splitEveryGoF d fuel [] (List.drop (d.length - 1) rest)
    else splitEveryGoF d fuel (c :: acc) rest

/-- Python `clean_item.split(delimiter)` (used for non-identifier elements). -/
def splitEvery (d s : Str) : List Str := splitEveryGoF d (s.length + 1) [] s

/-- A raw field as `process_field` receives it: a scalar cell value or a
list of them (`if not isinstance(field, list): field = [field]`). -/
inductive PyField where
  | scalar (v : RawScalar)
  | list (l : List RawScalar)
  deriving DecidableEq, Repr

/-- Python `str(item)` on the scalars that occur in fields.  (`str(None)` is
`"None"` and `str(nan)` is `"nan"`; callers null-filter before calling
`process_field`, so the null case is never reached in the pipeline — we pick
`"None"`.) -/
def pyStr : RawScalar → Str
  | .null => "None".toList
  | .intV n => intStr n
  | .strV s => s

/-- The elements of a field after the list coercion. -/
def fieldElems : PyField → List RawScalar
  | .scalar v => [v]
  | .list l => l

/-- Keep the first occurrence of each element, dropping later duplicates.
Models the `processed_items` Python `set` of `process_field`; a Python set
iterates in an unspecified order, we fix first-insertion order (every claim
about the result is about its elements, not their order). -/
def dedupKeepFirst {α} [DecidableEq α] (l : List α) : List α :=
  l.foldl (fun acc a => if a ∈ acc then acc else acc ++ [a]) []

/-- `process_field(field, delimiter, lower=False)` from `mango/spoon.py`
(the `pattern` parameter of the source is unused there and omitted):

1. coerce to list, stringify every element;
2. no delimiter: return the stringified elements as they are;
3. with a delimiter: per element, strip; skip empty; if the element starts
   with a known identifier prefix, split only where the delimiter is
   followed (after optional whitespace) by another known prefix, else split
   at every delimiter occurrence; strip every piece, optionally lower-case
   it, drop empty pieces, and collect everything into one set. -/
def process_field (field : PyField) (delimiter : Option Str) (lower : Bool) : List Str :=
  let string_field := (fieldElems field).map pyStr
  match delimiter with
  | none => string_field
  | some d =>
    dedupKeepFirst <| string_field.foldl (fun acc item =>
      let clean_item := pyStrip item
      if clean_item = [] then acc
      else
        let parts := if isIdString clean_item then splitSmart d clean_item
                     else splitEvery d clean_item
        acc ++ (parts.map (fun part =>
          if lower then (pyStrip part).map Char.toLower else pyStrip part)).filter
          (· ≠ [])) []

/-- Spec-side splitter for C5, written from the claim text: for a one-
character delimiter, split exactly at the positions where the delimiter
occurs and is immediately followed — optionally after whitespace — by a
known identifier prefix (the whitespace stays in the following piece; the
pieces are compared after stripping). -/
def claimSplit (dc : Char) : Str → List Str
  | [] => [[]]
  | c :: rest =>
    if c = dc ∧ prefixFollows rest then [] :: claimSplit dc rest
    else (claimSplit dc rest).modifyHead (c :: ·)

-- ## Entity type resolver (`__main__.py`, `get_dynamic_entity_type`;
-- `mango/config.py`, `prefix_map`)

/-- Python `str.lower()` restricted to ASCII (`Char.toLower` lowercases
`A`–`Z`); every prefix-table entry and column name is ASCII. -/
def pyLower (s : Str) : Str := s.map Char.toLower

/-- Association-list lookup modelling Python `dict.get` (the configured maps
have distinct keys, so first match is the dict entry). -/
def lookupStr (m : List (Str × Str)) (k : Str) : Option Str :=
  match m.find? (fun e => e.1 = k) with
  | some e => some e.2
  | none => none

/-- `prefix_map` from `mango/config.py`, in configuration (insertion) order. -/
def prefix_map : List (Str × Str) :=
  [("p_".toList, "person".toList),
   ("w_".toList, "work".toList),
   ("ex_".toList, "expression".toList),
   ("m_".toList, "manifestation".toList),
   ("m_vol_".toList, "manifestation".toList),
   ("i_".toList, "item".toList),
   ("PO_".toList, "physical_object".toList),
   ("PO_PAG_".toList, "physical_object".toList),
   ("PAG_".toList, "page".toList),
   ("VO_".toList, "visual_object".toList),
   ("e_".toList, "event".toList),
   ("ac_".toList, "abstract_character".toList),
   ("inst_".toList, "institution".toList),
   ("loc_".toList, "place".toList)]

/-- The fixed set of dynamically-typed columns of `get_dynamic_entity_type`. -/
def dynamically_typed_columns : List Str :=
  ["PERSON_CHARACTER_ID_A", "PERSON_CHARACTER_ID_B", "HYPOTHESIS_ABOUT_ID(S)",
   "MENTIONING_ID", "MENTIONED_ID", "AUTHOR_WORK_ID", "OTHER_SECONDARY_ROLE_ID",
   "TRANSLATOR_ID", "EDITOR_ID", "SCRIPTWRITER_ID", "COMPOSITOR_ID",
   "REVIEWER_ID", "PUBLISHER_MANIFESTATION_ID", "EDITOR_MANIFESTATION_ID",
   "CORRECTOR_MANIFESTATION_ID", "SPONSOR_MANIFESTATION_ID", "OWNER_OF_ITEM_ID",
   "OWNERSHIP_OF_VISUAL_ID", "INSCRIBER_VISUAL_ID", "SENDER_VISUAL_ID",
   "RECIPIENT_VISUAL_ID", "OWNERSHIP_OF_PHYSICAL_OBJECT_ID",
   "CREATOR_OF_PHYSICAL_OBJECT_ID"].map String.toList

/-- The dynamic column-name suffixes of `get_dynamic_entity_type`. -/
def dynSuffixes : List Str :=
  ["_MENTIONING", "_MENTIONED_BY", "_HYPOTHESIS_OF"].map String.toList

/-- `column_name.endswith((...))`. -/
def endswithAny (s : Str) (sufs : List Str) : Bool :=
  sufs.any (fun suf => suf.isSuffixOf s)

/-- The `for prefix, entity_type in prefix_map.items(): if
str_value_lower.startswith(prefix.lower()): return entity_type` loop;
`value_lower` is the already-lowered value. -/
def prefixLoop (value_lower : Str) : List (Str × Str) → Option Str
  | [] => none
  | (p, t) :: rest =>
    if (pyLower p).isPrefixOf value_lower then some t else prefixLoop value_lower rest

/-- `get_dynamic_entity_type(column_name, value, default_mapping)` from
`__main__.py` (the global `prefix_map` comes from `mango/config.py`). -/
def get_dynamic_entity_type (column_name value : Str)
    (default_mapping : List (Str × Str)) : Option Str :=
  if endswithAny column_name dynSuffixes ∨ column_name ∈ dynamically_typed_columns then
    match prefixLoop (pyLower value) prefix_map with
    | some t => some t
    | none => lookupStr default_mapping column_name
  else lookupStr default_mapping column_name

-- ## Relation list ordering (`__main__.py`, `unique_relations`)

/-- A collected relation tuple `(relation_name, src_type, trg_type,
entity1_id, entity2_id)`; the two entity ids are modelled by their string
form (`str(ObjectId)`), which is what the sort key uses. -/
structure RelTuple where
  name : Str
  srcType : Str
  dstType : Str
  entity1Id : Str
  entity2Id : Str
  deriving DecidableEq, Repr

/-- Python `str <` (lexicographic by code point). -/
def strLt : Str → Str → Bool
  | [], [] => false
  | [], _ :: _ => true
  | _ :: _, [] => false
  | a :: s, b :: t => if a < b then true else if b < a then false else strLt s t

/-- The sort key `(x[0], str(x[3]), str(x[4]))` of `unique_relations`. -/
def sortKey (t : RelTuple) : Str × Str × Str := (t.name, t.entity1Id, t.entity2Id)

/-- Strict lexicographic order on the sort key (Python tuple `<`). -/
def keyLt (a b : Str × Str × Str) : Bool :=
  strLt a.1 b.1 ∨ (a.1 = b.1 ∧
    (strLt a.2.1 b.2.1 ∨ (a.2.1 = b.2.1 ∧ strLt a.2.2 b.2.2)))

/-- The ordering `sorted` uses on whole tuples: compare the keys. -/
def relLe (t1 t2 : RelTuple) : Bool := keyLt (sortKey t1) (sortKey t2) ∨ sortKey t1 = sortKey t2

/-- `sorted(list(set(relations_to_create)), key=lambda x: (x[0], str(x[3]),
str(x[4])))` from `__main__.py` line 314.  `setOrder` stands for
`list(set(relations_to_create))`: the distinct collected tuples in the
Python set's unspecified iteration order (an arbitrary permutation of the
distinct tuples); `sorted` is a stable sort, modelled by insertion sort. -/
def unique_relations (setOrder : List RelTuple) : List RelTuple :=
  List.insertionSort (fun a b => relLe a b = true) setOrder

-- ## Entity deduplication phase (`__main__.py`, `collect_mapped_entities`,
-- `collect_dynamic_relation_entities`, `all_entities = {**dynamic, **mapped}`)

/-- A spreadsheet row: column name → raw cell scalar. -/
abbrev Row := List (Str × RawScalar)

/-- Reading a cell: a column absent from the row is null (pandas fills
absent columns with NaN when concatenating sheets, and `row.get` yields
`None`); both are null in the model. -/
def rowGet (r : Row) (c : Str) : RawScalar :=
  match r.find? (fun e => e.1 = c) with
  | some e => e.2
  | none => .null

/-- Python truthiness of a raw scalar (used by the `params` comprehension
`if (value := record.get(p_name)) and pd.notnull(value)`; NaN is truthy in
Python but `pd.notnull` rejects it, and both NaN and `None` are `.null`
here, so the conjunction collapses to `rawTruthy`). -/
def rawTruthy : RawScalar → Bool
  | .null => false
  | .intV n => n ≠ 0
  | .strV s => s ≠ []

/-- An in-memory entity record `{type, name, params}`. -/
structure EntityRecord where
  type : Str
  name : Str
  params : List (Str × Option Str)
  deriving DecidableEq, Repr

/-- Update-or-append on an association list (Python `dict` insert: an
existing key keeps its position and gets the new value; a new key is
appended). -/
def setAssoc {β : Type} (m : List (Str × β)) (k : Str) (v : β) : List (Str × β) :=
  if m.any (fun e => e.1 = k) then m.map (fun e => if e.1 = k then (k, v) else e)
  else m ++ [(k, v)]

/-- The `params` dict comprehension of `collect_mapped_entities`: for each
`(p_name, f_name)` property entry (paired here with the projected record's
value for `p_name`), keep `f_name: normalize_value(value)` when the raw
value is truthy and not null. -/
def buildParams (nfc : Str → Str) (props : List (Str × Str)) (pvals : List RawScalar) :
    List (Str × Option Str) :=
  (props.zip pvals).foldl (fun acc pv =>
    if rawTruthy pv.2 then setAssoc acc pv.1.2 (normalize_value nfc pv.2) else acc) []

/-- `if entity_key not in entities: entities[entity_key] = record`. -/
def addEntity (m : List ((Str × Str) × EntityRecord)) (key : Str × Str)
    (rec : EntityRecord) : List ((Str × Str) × EntityRecord) :=
  if m.any (fun e => e.1 = key) then m else m ++ [(key, rec)]

/-- The properties configured for one column (`properties.get(column_name, {})`). -/
def propsFor (properties : List (Str × List (Str × Str))) (column_name : Str) :
    List (Str × Str) :=
  match properties.find? (fun e => e.1 = column_name) with
  | some e => e.2
  | none => []

/-- `collect_mapped_entities(data)` from `__main__.py`.  The configuration
maps (`column2type`, `properties`, `delimited_fields`) come from the
external `recipe.toml` and are passed as parameters; `columns` is
`data.columns`.  For every statically-mapped column present in the data, the
distinct `(value, property-values)` records are scanned in order
(`drop_duplicates` keeps first occurrences), each value is split and
normalized, and a record keyed by `(entity_type, normalized value)` is
inserted on first sight only, with `params` built from the record's sibling
properties. -/
def collect_mapped_entities (nfc : Str → Str) (column2type : List (Str × Str))
    (properties : List (Str × List (Str × Str))) (delimited_fields : List (Str × Str))
    (columns : List Str) (data : List Row) : List ((Str × Str) × EntityRecord) :=
  column2type.foldl (fun entities ce =>
    if ce.1 ∈ columns then
      let props := propsFor properties ce.1
      let unique_records := dedupKeepFirst
        (data.map (fun row => (rowGet row ce.1, props.map (fun pe => rowGet row pe.1))))
      unique_records.foldl (fun ents rec =>
        if rec.1 = .null then ents
        else
          (process_field (.scalar rec.1) (lookupStr delimited_fields ce.1) false).foldl
            (fun es single_item =>
              match normalize_value nfc (.strV single_item) with
              | some s =>
                if s = [] then es
                else addEntity es (ce.2, s) ⟨ce.2, s, buildParams nfc props rec.2⟩
              | none => es) ents) entities
    else entities) []

/-- One configured relation `{name, entity1, entity2}` from `recipe.toml`. -/
structure RelDef where
  name : Str
  entity1 : Str
  entity2 : Str
  deriving DecidableEq, Repr

/-- `collect_dynamic_relation_entities(data)` from `__main__.py`: the
relation columns that have no static type are scanned row by row; each
split, normalized value is typed via `get_dynamic_entity_type` and inserted
with empty `params` on first sight.  (`relation_cols` is a Python set, whose
iteration order is unspecified; first-occurrence order is fixed here — the
resulting key set does not depend on it, and every dynamic record carries
empty params.) -/
def collect_dynamic_relation_entities (nfc : Str → Str)
    (relations : List RelDef) (column2type : List (Str × Str))
    (delimited_fields : List (Str × Str)) (columns : List Str) (data : List Row) :
    List ((Str × Str) × EntityRecord) :=
  let relation_cols := dedupKeepFirst
    (relations.map (fun r => r.entity1) ++ relations.map (fun r => r.entity2))
  let dynamic_cols := relation_cols.filter
    (fun col => ¬ column2type.any (fun e => e.1 = col) ∧ col ∈ columns)
  data.foldl (fun entities row =>
    dynamic_cols.foldl (fun ents col =>
      if rowGet row col = .null then ents
      else
        (process_field (.scalar (rowGet row col)) (lookupStr delimited_fields col)
            false).foldl
          (fun es item =>
            match normalize_value nfc (.strV item) with
            | some s =>
              if s = [] then es
              else
                match get_dynamic_entity_type col s column2type with
                | some ety => addEntity es (ety, s) ⟨ety, s, []⟩
                | none => es
            | none => es) ents) entities) []

/-- `all_entities = {**dynamic_entities, **mapped_entities}`: keys of the
dynamic dict first in their insertion order, with values overridden by the
mapped dict on collision (the static record with `params` wins); mapped-only
keys follow. -/
def mergeDicts (dyn mapped : List ((Str × Str) × EntityRecord)) :
    List ((Str × Str) × EntityRecord) :=
  (dyn.map (fun e =>
    match mapped.find? (fun m => m.1 = e.1) with
    | some m => (e.1, m.2)
    | none => e)) ++
    mapped.filter (fun m => ¬ dyn.any (fun e => e.1 = m.1))

/-- The whole entity deduplication phase: both collection passes merged. -/
def entity_dedup_phase (nfc : Str → Str) (column2type : List (Str × Str))
    (properties : List (Str × List (Str × Str))) (delimited_fields : List (Str × Str))
    (relations : List RelDef) (columns : List Str) (data : List Row) :
    List ((Str × Str) × EntityRecord) :=
  mergeDicts
    (collect_dynamic_relation_entities nfc relations column2type delimited_fields
      columns data)
    (collect_mapped_entities nfc column2type properties delimited_fields columns data)

/-- Toy NFC instance for concrete accent examples: composes `e` followed by
combining acute (U+0301) into `é` (U+00E9), which is exactly what real NFC
does on the strings involved. -/
def nfcToy : Str → Str
  | [] => []
  | 'e' :: c :: rest => if c = '́' then 'é' :: nfcToy rest else 'e' :: nfcToy (c :: rest)
  | c :: rest => c :: nfcToy rest

-- ## Merge engine: entity merge (`mango/db_handler.py`, `MongoDirect.merge_entity`)

/-- A BSON-ish document field value (the value shapes `merge_entity`
reads and writes). -/
inductive BVal where
  | vStr (s : Str)
  | vId (n : Nat)
  | vIdList (l : List Nat)
  | vBool (b : Bool)
  | vNat (n : Nat)
  | vTime (t : Nat)
  deriving DecidableEq, Repr

/-- A stored document: server id plus named fields. -/
structure MDoc where
  id : Nat
  fields : List (Str × BVal)
  deriving DecidableEq, Repr

/-- Field access on a document. -/
def getField (fields : List (Str × BVal)) (k : Str) : Option BVal :=
  match fields.find? (fun e => e.1 = k) with
  | some e => some e.2
  | none => none

/-- `collection.find_one(query)`: first document whose fields contain every
query pair exactly (the queries issued here compare scalars only). -/
def findOneDoc (docs : List MDoc) (q : List (Str × BVal)) : Option MDoc :=
  docs.find? (fun d => q.all (fun kv => getField d.fields kv.1 = some kv.2))

/-- The Mongo server plus client-cache state that `merge_entity` touches.
`audits` counts documents in `db.audits` (only their number matters here);
`nextId` supplies fresh ObjectIds, `clock` fresh timestamps. -/
structure MongoState where
  typesDb : List MDoc
  usersDb : List MDoc
  colls : List (Str × List MDoc)
  audits : Nat
  activeEntities : Option (List (Str × Str))
  userId : Nat
  nextId : Nat
  clock : Nat
  deriving DecidableEq, Repr

/-- The documents of one entity collection. -/
def getColl (st : MongoState) (name : Str) : List MDoc :=
  match st.colls.find? (fun e => e.1 = name) with
  | some e => e.2
  | none => []

/-- `self.collection_map` of `MongoDirect.__init__` (entity-type name →
collection name). -/
def collection_map : List (Str × Str) :=
  [("persons".toList, "persons".toList), ("places".toList, "places".toList),
   ("institutions".toList, "institutions".toList), ("event".toList, "events".toList),
   ("appellations".toList, "appellations".toList),
   ("attachments".toList, "attachments".toList), ("groups".toList, "groups".toList),
   ("sources".toList, "sources".toList),
   ("visual_object".toList, "visual_objects".toList), ("work".toList, "works".toList),
   ("expression".toList, "expressions".toList),
   ("manifestation".toList, "manifestations".toList), ("item".toList, "items".toList),
   ("page".toList, "pages".toList),
   ("physical_object".toList, "physical_objects".toList),
   ("abstract_character".toList, "abstract_characters".toList),
   ("hypothesis".toList, "hypotheses".toList),
   ("relationship".toList, "relationships".toList)]

/-- `self.predefined` (display name → canonical name field). -/
def predefined : List (Str × Str) :=
  [("group".toList, "name".toList), ("appellation".toList, "name".toList),
   ("source".toList, "title".toList), ("attachment".toList, "label".toList),
   ("event".toList, "title".toList)]

/-- `get_active_entities`: `{e["displayName"].lower(): e["name"] for e in
db.types.find({"active": True})}` (later duplicate display names overwrite
earlier ones, as in a Python dict; documents lacking the string fields are
skipped — the server data always has them). -/
def computeActiveEntities (typesDb : List MDoc) : List (Str × Str) :=
  typesDb.foldl (fun acc d =>
    if getField d.fields ("active".toList) = some (.vBool true) then
      match getField d.fields ("displayName".toList), getField d.fields ("name".toList) with
      | some (.vStr dn), some (.vStr n) => setAssoc acc (pyLower dn) n
      | _, _ => acc
    else acc) []

/-- `existing_doc.get("associatedUsers", [])` (a non-list value also yields
the empty default in the model). -/
def assocUsersOf (d : MDoc) : List Nat :=
  match getField d.fields ("associatedUsers".toList) with
  | some (.vIdList l) => l
  | _ => []

/-- The `$addToSet associatedUsers` + `$set updateUser/latestUpdateTimestamp`
update applied to the found document. -/
def updateFoundDoc (uid clock : Nat) (d : MDoc) : MDoc :=
  let f1 := setAssoc d.fields ("associatedUsers".toList)
    (.vIdList (assocUsersOf d ++ [uid]))
  let f2 := setAssoc f1 ("updateUser".toList) (.vId uid)
  let f3 := setAssoc f2 ("latestUpdateTimestamp".toList) (.vTime clock)
  { d with fields := f3 }

/-- `update_one({"_id": id}, ...)`: rewrite the documents with that id. -/
def updateDocIn (docs : List MDoc) (did : Nat) (f : MDoc → MDoc) : List MDoc :=
  docs.map (fun d => if d.id = did then f d else d)

/-- Total number of documents across the entity collections. -/
def entityDocsTotal (st : MongoState) : Nat :=
  (st.colls.map (fun e => e.2.length)).sum

/-- `MongoDirect.merge_entity(display_name, entity_name, params)`.

1. lazily populate `active_entities`; unresolvable display type → `None`;
2. `persons` special case: a users-collection account with that name wins;
3. find by `params` + the canonical name field; found → add the operator to
   `associatedUsers` if absent (plus update stamp and audit) and return the
   existing id;
4. else insert a new document (metadata, then `query_params`, then the
   `measures`/`relations`/`type` overrides) and return the fresh id. -/
def merge_entity (st0 : MongoState) (display_name entity_name : Str)
    (params : List (Str × BVal)) : Option Nat × MongoState :=
  let st := match st0.activeEntities with
    | some _ => st0
    | none => { st0 with activeEntities := some (computeActiveEntities st0.typesDb) }
  let ae := st.activeEntities.getD []
  let dl := pyLower display_name
  match lookupStr ae dl with
  | none => (none, st)
  | some entity_type =>
    if entity_type = [] then (none, st)
    else
      let userHit : Option Nat :=
        if entity_type = "persons".toList then
          match findOneDoc st.usersDb [("username".toList, .vStr entity_name)] with
          | some u => some u.id
          | none => none
        else none
      match userHit with
      | some uid => (some uid, st)
      | none =>
        let collName := (lookupStr collection_map entity_type).getD ("entities".toList)
        let isDefault := (lookupStr collection_map entity_type).isNone
        let field_name := (lookupStr predefined dl).getD ("description".toList)
        let query_params := setAssoc params field_name (.vStr entity_name)
        match findOneDoc (getColl st collName) query_params with
        | some existing_doc =>
          if st.userId ∈ assocUsersOf existing_doc then (some existing_doc.id, st)
          else
            (some existing_doc.id,
             { st with
                colls := setAssoc st.colls collName
                  (updateDocIn (getColl st collName) existing_doc.id
                    (updateFoundDoc st.userId st.clock)),
                audits := st.audits + 1,
                clock := st.clock + 1 })
        | none =>
          let base : List (Str × BVal) :=
            [("active".toList, .vBool true), ("creationUser".toList, .vId st.userId),
             ("updateUser".toList, .vId st.userId),
             ("creationTimestamp".toList, .vTime st.clock),
             ("latestUpdateTimestamp".toList, .vTime st.clock),
             ("namespace".toList, .vStr ("interfolia".toList)), ("__v".toList, .vNat 0),
             ("associatedUsers".toList, .vIdList [st.userId])]
          let doc1 := query_params.foldl (fun f kv => setAssoc f kv.1 kv.2) base
          let doc2 :=
            if entity_type = "persons".toList then
              setAssoc doc1 ("measures".toList) (.vIdList [])
            else if entity_type = "institutions".toList ∨ entity_type = "events".toList
                ∨ isDefault then
              setAssoc doc1 ("relations".toList) (.vIdList [])
            else doc1
          let doc3 := match findOneDoc st.typesDb [("name".toList, .vStr entity_type)] with
            | some tdoc => setAssoc doc2 ("type".toList) (.vId tdoc.id)
            | none => doc2
          (some st.nextId,
           { st with
              colls := setAssoc st.colls collName (getColl st collName ++ [⟨st.nextId, doc3⟩]),
              nextId := st.nextId + 1,
              audits := st.audits + 1,
              clock := st.clock + 1 })

/-- The metadata field names `merge_entity` itself writes after (or on top
of) `query_params`; `params` entries using these keys break
find-before-create (see the C1 counterexample). -/
def reservedParamKeys : List Str :=
  ["type".toList, "measures".toList, "relations".toList, "associatedUsers".toList,
   "updateUser".toList, "latestUpdateTimestamp".toList]

-- ## Relation merge concurrency (`mango/db_handler.py`, `MongoDirect.merge_relation`)

/-- Association lookup for arbitrary (decidable) key types: Python `dict.get`
for the relation-type cache `(name, str(srcId), str(trgId)) -> id`, the
relations cache and the per-key lock dict. -/
def lookupKey {κ : Type} [DecidableEq κ] {β : Type} (m : List (κ × β)) (k : κ) :
    Option β :=
  match m.find? (fun e => e.1 = k) with
  | some e => some e.2
  | none => none

/-- Association update for arbitrary key types (`d[k] = v`). -/
def setAssocK {κ : Type} [DecidableEq κ] {β : Type} (m : List (κ × β)) (k : κ)
    (v : β) : List (κ × β) :=
  if m.any (fun e => e.1 = k) then m.map (fun e => if e.1 = k then (k, v) else e)
  else m ++ [(k, v)]

/-- The store plus client caches that `merge_relation` touches. `rtDocs` is
`db.relationtypes`, `relDocs` is `db.relations`; `rtCache` is
`self.relation_types` keyed by `(name, str(srcTypeId), str(trgTypeId))`,
`relCache` is `self.relations` keyed by the concatenation
`str(e1) + str(e2) + str(relationTypeId)`; `locks` holds the currently HELD
per-key locks of `self.relation_type_locks` (key ↦ holding task); `audits`
counts audit documents; both caches are taken as already populated
(`hasattr` true: the loader calls the getters before fanning out). The
operator context `user_id` is set (the pipeline authenticates first). -/
structure RelState where
  typesDb : List MDoc
  rtDocs : List MDoc
  relDocs : List MDoc
  audits : Nat
  rtCache : List ((Str × Str × Str) × Nat)
  relCache : List (Str × Nat)
  locks : List ((Str × Str × Str) × Nat)
  userId : Nat
  nextId : Nat
  deriving DecidableEq, Repr

/-- The arguments of one `merge_relation(relation_name, src_type, trg_type,
entity1_id, entity2_id)` call, shared by all concurrently launched tasks. -/
structure RelArgs where
  nm : Str
  srcT : Str
  trgT : Str
  e1 : Nat
  e2 : Nat
  deriving DecidableEq, Repr

/-- One task's control point, between the `await`s of `merge_relation`
(each constructor is a suspension point of the coroutine; the code between
two awaits runs atomically on the event loop):
`start` → awaiting the src-type `find_one`; `gotSrc` → awaiting the trg-type
`find_one`; `gotTrg` → at the lock / cache checks; `rtInserted` → the task
inserted a relation-type doc (holding the lock) and awaits the audit insert;
`rtAudited` → awaits resumption to update the cache and release; `relInserted`
→ inserted a relation doc, awaiting the audit; `relAudited` → awaits
resumption to update the relations cache and return. -/
inductive RTask where
  | start
  | gotSrc (src : Option Nat)
  | gotTrg (src trg : Option Nat)
  | rtInserted (s t rtid : Nat)
  | rtAudited (s t rtid : Nat)
  | relInserted (rtid rid : Nat)
  | relAudited (rtid rid : Nat)
  | doneNone
  | doneSome (rtid rid : Nat)
  deriving DecidableEq, Repr

/-- `rel_type_key = (relation_name, str(src_type_id), str(trg_type_id))`. -/
def rtKeyOf (a : RelArgs) (s t : Nat) : Str × Str × Str :=
  (a.nm, natDigs s, natDigs t)

/-- The relation-type document `merge_relation` inserts. -/
def rtDocFields (a : RelArgs) (uid s t : Nat) : List (Str × BVal) :=
  [("active".toList, .vBool true), ("name".toList, .vStr a.nm),
   ("type".toList, .vId s), ("relationType".toList, .vId t),
   ("creationUser".toList, .vId uid), ("updateUser".toList, .vId uid),
   ("namespace".toList, .vStr ("interfolia".toList)), ("__v".toList, .vNat 0)]

/-- `rel_key = str(entity1_id) + str(entity2_id) + str(relation_type_id)`
(string concatenation, exactly as in the source). -/
def relKeyOf (a : RelArgs) (rtid : Nat) : Str :=
  natDigs a.e1 ++ natDigs a.e2 ++ natDigs rtid

/-- The relation document `merge_relation` inserts. -/
def relDocFields (a : RelArgs) (rtid : Nat) : List (Str × BVal) :=
  [("active".toList, .vBool true), ("entity1".toList, .vId a.e1),
   ("relationType".toList, .vId rtid), ("entity2".toList, .vId a.e2),
   ("__v".toList, .vNat 0)]

/-- The tail of `merge_relation` after a relation-type id is known (lines
207-224): check the relations cache; on a hit return the cached id, else
insert the relation document (the suspension at `relations.insert_one`). -/
def relPhase (a : RelArgs) (g : RelState) (rtid : Nat) : RTask × RelState :=
  match lookupKey g.relCache (relKeyOf a rtid) with
  | some rid => (.doneSome rtid rid, g)
  | none =>
    (.relInserted rtid g.nextId,
     { g with relDocs := g.relDocs ++ [⟨g.nextId, relDocFields a rtid⟩],
              nextId := g.nextId + 1 })

/-- One atomic segment of task `i` running `merge_relation`: the code from one
suspension point to the next. `gotTrg` with a held lock leaves the task
blocked (unchanged); acquiring a free lock, reading the cache and — on a
cache hit — releasing and running the whole relations tail is one segment
(uncontended `asyncio.Lock.acquire` does not yield, and the cache-hit return
path contains no `await`). A database write is applied when the task enters
the corresponding `await`. -/
def stepRTask (a : RelArgs) (i : Nat) (ts : RTask) (g : RelState) :
    RTask × RelState :=
  match ts with
  | .start =>
    (.gotSrc ((findOneDoc g.typesDb [("name".toList, .vStr a.srcT)]).map
      (fun d => d.id)), g)
  | .gotSrc s =>
    (.gotTrg s ((findOneDoc g.typesDb [("name".toList, .vStr a.trgT)]).map
      (fun d => d.id)), g)
  | .gotTrg none _ => (.doneNone, g)
  | .gotTrg (some _) none => (.doneNone, g)
  | .gotTrg (some s) (some t) =>
    match lookupKey g.locks (rtKeyOf a s t) with
    | some _ => (.gotTrg (some s) (some t), g)
    | none =>
      match lookupKey g.rtCache (rtKeyOf a s t) with
      | some rtid => relPhase a g rtid
      | none =>
        (.rtInserted s t g.nextId,
         { g with rtDocs := g.rtDocs ++ [⟨g.nextId, rtDocFields a g.userId s t⟩],
                  nextId := g.nextId + 1,
                  locks := setAssocK g.locks (rtKeyOf a s t) i })
  | .rtInserted s t rtid => (.rtAudited s t rtid, { g with audits := g.audits + 1 })
  | .rtAudited s t rtid =>
    relPhase a
      { g with rtCache := setAssocK g.rtCache (rtKeyOf a s t) rtid,
               locks := g.locks.filter (fun e => ¬ e.1 = rtKeyOf a s t) } rtid
  | .relInserted rtid rid => (.relAudited rtid rid, { g with audits := g.audits + 1 })
  | .relAudited rtid rid =>
    (.doneSome rtid rid,
     { g with relCache := setAssocK g.relCache (relKeyOf a rtid) rid })
  | .doneNone => (.doneNone, g)
  | .doneSome rtid rid => (.doneSome rtid rid, g)

/-- The scheduler runs one segment of task `i` (out-of-range indices and
blocked or finished tasks change nothing). -/
def stepSys (a : RelArgs) (cfg : List RTask × RelState) (i : Nat) :
    List RTask × RelState :=
  match cfg.1[i]? with
  | none => cfg
  | some ts =>
    let p := stepRTask a i ts cfg.2
    (cfg.1.set i p.1, p.2)

/-- Run a schedule: an arbitrary interleaving of the tasks' atomic segments. -/
def runSched (a : RelArgs) (cfg : List RTask × RelState) (σ : List Nat) :
    List RTask × RelState :=
  σ.foldl (stepSys a) cfg

/-- A task that returned (either `None` or a relation id). -/
def isDoneR : RTask → Bool
  | .doneNone => true
  | .doneSome _ _ => true
  | _ => false

/-- Control points before any store write for the key in play. -/
@[reducible] def earlyR (s t : Nat) (ts : RTask) : Prop :=
  ts = .start ∨ ts = .gotSrc (some s) ∨ ts = .gotTrg (some s) (some t)

/-- Control points after having observed relation-type id `rtid`. -/
@[reducible] def lateR (rtid : Nat) (ts : RTask) : Prop :=
  (∃ rid, ts = .relInserted rtid rid) ∨ (∃ rid, ts = .relAudited rtid rid) ∨
  (∃ rid, ts = .doneSome rtid rid)

/-- The lock-protocol invariant for one previously-unseen key: either nobody
has touched the key (all tasks early), or exactly one task holds the lock,
has inserted the single relation-type doc and has not yet published it to the
cache (everyone else still early), or the id is published, the lock is free
and every task is early or carries that same id. -/
@[reducible] def InvR (a : RelArgs) (st0 : RelState) (s t : Nat)
    (cfg : List RTask × RelState) : Prop :=
  cfg.2.typesDb = st0.typesDb ∧ cfg.2.userId = st0.userId ∧
  ((lookupKey cfg.2.rtCache (rtKeyOf a s t) = none ∧
    lookupKey cfg.2.locks (rtKeyOf a s t) = none ∧
    cfg.2.rtDocs = st0.rtDocs ∧ ∀ ts ∈ cfg.1, earlyR s t ts) ∨
   (∃ i rtid, lookupKey cfg.2.locks (rtKeyOf a s t) = some i ∧
    lookupKey cfg.2.rtCache (rtKeyOf a s t) = none ∧
    cfg.2.rtDocs = st0.rtDocs ++ [⟨rtid, rtDocFields a st0.userId s t⟩] ∧
    (cfg.1[i]? = some (.rtInserted s t rtid) ∨
     cfg.1[i]? = some (.rtAudited s t rtid)) ∧
    ∀ j, ¬ j = i → ∀ ts, cfg.1[j]? = some ts → earlyR s t ts) ∨
   (∃ rtid, lookupKey cfg.2.rtCache (rtKeyOf a s t) = some rtid ∧
    lookupKey cfg.2.locks (rtKeyOf a s t) = none ∧
    cfg.2.rtDocs = st0.rtDocs ++ [⟨rtid, rtDocFields a st0.userId s t⟩] ∧
    ∀ ts ∈ cfg.1, earlyR s t ts ∨ lateR rtid ts))

-- ===== THEOREMS =====

-- ## Whitespace / strip basics

theorem dropWhile_head_not {α} (p : α → Bool) (l : List α) {c : α} {t : List α}
    (h : l.dropWhile p = c :: t) : p c = false := by
  have := List.head?_dropWhile_not p l
  rw [h] at this
  simpa using this

theorem dropWhile_all_not {α} (p : α → Bool) (l : List α)
    (h : l.all (fun c => ¬ p c)) : l.dropWhile p = l := by
  induction l with
  | nil => rfl
  | cons a t ih =>
    simp only [List.all_cons, Bool.and_eq_true, decide_eq_true_eq] at h
    simp [List.dropWhile, h.1]

theorem dropWhile_idem {α} (p : α → Bool) (l : List α) :
    (l.dropWhile p).dropWhile p = l.dropWhile p := by
  cases h : l.dropWhile p with
  | nil => rfl
  | cons c t =>
    have hc := dropWhile_head_not p l h
    simp [List.dropWhile, hc]

theorem dropWhile_append_of_all {α} (p : α → Bool) {w : List α} (s : List α)
    (h : w.all p) : (w ++ s).dropWhile p = s.dropWhile p := by
  induction w with
  | nil => simp
  | cons a t ih =>
    simp only [List.all_cons, Bool.and_eq_true] at h
    simp [List.dropWhile, h.1, ih h.2]

theorem trimL_of_noWs (s : Str) (h : s.all (fun c => ¬ isWsChar c)) : trimL s = s :=
  dropWhile_all_not _ _ h

theorem trimR_of_noWs (s : Str) (h : s.all (fun c => ¬ isWsChar c)) : trimR s = s := by
  unfold trimR
  rw [dropWhile_all_not _ _ (by simpa using h), List.reverse_reverse]

theorem pyStrip_of_noWs (s : Str) (h : s.all (fun c => ¬ isWsChar c)) : pyStrip s = s := by
  unfold pyStrip
  rw [trimL_of_noWs s h, trimR_of_noWs s h]

theorem trimL_idem (s : Str) : trimL (trimL s) = trimL s :=
  dropWhile_idem _ _

theorem trimR_idem (s : Str) : trimR (trimR s) = trimR s := by
  unfold trimR
  rw [List.reverse_reverse, dropWhile_idem]

theorem trimR_cons (c : Char) (t : Str) :
    trimR (c :: t) = [] ∨ ∃ u, trimR (c :: t) = c :: u := by
  unfold trimR
  rw [List.reverse_cons, List.dropWhile_append]
  by_cases he : (List.dropWhile isWsChar t.reverse).isEmpty
  · by_cases hc : isWsChar c <;> simp [he, List.dropWhile, hc]
  · right
    simp [he]

theorem trimL_trimR (s : Str) : trimL (trimR (trimL s)) = trimR (trimL s) := by
  cases h : trimL s with
  | nil => simp [trimR, trimL, h]
  | cons c t =>
    have hc : isWsChar c = false := dropWhile_head_not _ _ h
    rcases trimR_cons c t with h2 | ⟨u, h2⟩ <;> rw [h2]
    · rfl
    · simp [trimL, List.dropWhile, hc]

theorem pyStrip_idem (s : Str) : pyStrip (pyStrip s) = pyStrip s := by
  unfold pyStrip
  rw [trimL_trimR, trimR_idem]

theorem trimL_decomp (s : Str) : ∃ a, s = a ++ trimL s ∧ a.all isWsChar := by
  refine ⟨s.takeWhile isWsChar, ?_, ?_⟩
  · rw [trimL, List.takeWhile_append_dropWhile]
  · simp only [List.all_eq_true]
    exact fun x hx => List.mem_takeWhile_imp hx

theorem trimR_decomp (s : Str) : ∃ b, s = trimR s ++ b ∧ b.all isWsChar := by
  refine ⟨(s.reverse.takeWhile isWsChar).reverse, ?_, ?_⟩
  · unfold trimR
    rw [← List.reverse_append, List.takeWhile_append_dropWhile, List.reverse_reverse]
  · simp only [List.all_reverse, List.all_eq_true]
    exact fun x hx => List.mem_takeWhile_imp hx

theorem pyStrip_decomp (s : Str) :
    ∃ a b, s = a ++ pyStrip s ++ b ∧ a.all isWsChar ∧ b.all isWsChar := by
  obtain ⟨a, ha, hwa⟩ := trimL_decomp s
  obtain ⟨b, hb, hwb⟩ := trimR_decomp (trimL s)
  refine ⟨a, b, ?_, hwa, hwb⟩
  conv_lhs => rw [ha, hb]
  simp [pyStrip]

theorem pyStrip_ws_head (w s : Str) (h : w.all isWsChar) :
    pyStrip (w ++ s) = pyStrip s := by
  unfold pyStrip trimL
  rw [dropWhile_append_of_all _ s h]

-- ## Decimal digits and integer rendering

theorem takeWhile_all_append (p : Char → Bool) (l r : Str) (hl : l.all p = true)
    (hr : ∀ c t, r = c :: t → p c = false) :
    (l ++ r).takeWhile p = l ∧ (l ++ r).dropWhile p = r := by
  induction l with
  | nil =>
    cases r with
    | nil => exact ⟨rfl, rfl⟩
    | cons c t => simp [List.takeWhile, List.dropWhile, hr c t rfl]
  | cons a l ih =>
    simp only [List.all_cons, Bool.and_eq_true] at hl
    have := ih hl.2
    simp [List.takeWhile, List.dropWhile, hl.1, this.1, this.2]

theorem natDigsAux_congr (f1 : Nat) : ∀ (f2 n : Nat), n < f1 → n < f2 →
    natDigsAux f1 n = natDigsAux f2 n := by
  induction f1 with
  | zero => intro f2 n h1; omega
  | succ g1 ih =>
    intro f2 n h1 h2
    cases f2 with
    | zero => omega
    | succ g2 =>
      by_cases h10 : n < 10
      · simp [natDigsAux, h10]
      · have hdiv : n / 10 < n := Nat.div_lt_self (by omega) (by norm_num)
        simp only [natDigsAux, h10, if_false]
        rw [ih g2 (n / 10) (by omega) (by omega)]

theorem natDigs_eq (n : Nat) : natDigs n =
    if n < 10 then [digitChar n] else natDigs (n / 10) ++ [digitChar (n % 10)] := by
  have hstep : natDigs n =
      if n < 10 then [digitChar n] else natDigsAux n (n / 10) ++ [digitChar (n % 10)] := rfl
  by_cases h10 : n < 10
  · simp [hstep, h10]
  · have hdiv : n / 10 < n := Nat.div_lt_self (by omega) (by norm_num)
    rw [hstep, if_neg h10, if_neg h10, natDigsAux_congr n (n / 10 + 1) (n / 10)
      (by omega) (by omega)]
    rfl

theorem digitChar_toNat {n : Nat} (h : n < 10) : (digitChar n).toNat = 48 + n := by
  interval_cases n <;> decide

theorem isDigitChar_digitChar {n : Nat} (h : n < 10) : isDigitChar (digitChar n) = true := by
  interval_cases n <;> decide

theorem natDigs_all_digits (n : Nat) : (natDigs n).all isDigitChar = true := by
  induction n using Nat.strong_induction_on with
  | _ n ih =>
    rw [natDigs_eq]
    by_cases h10 : n < 10
    · simp [h10, isDigitChar_digitChar h10]
    · have hdiv : n / 10 < n := Nat.div_lt_self (by omega) (by norm_num)
      simp [h10, List.all_append, ih _ hdiv,
        isDigitChar_digitChar (Nat.mod_lt n (by norm_num))]

theorem natDigs_ne_nil (n : Nat) : natDigs n ≠ [] := by
  rw [natDigs_eq]
  by_cases h10 : n < 10 <;> simp [h10]

theorem digsVal_append_digit (s : Str) (c : Char) :
    digsVal (s ++ [c]) = 10 * digsVal s + (c.toNat - 48) := by
  simp [digsVal, List.foldl_append]

theorem digsVal_natDigs (n : Nat) : digsVal (natDigs n) = n := by
  induction n using Nat.strong_induction_on with
  | _ n ih =>
    rw [natDigs_eq]
    by_cases h10 : n < 10
    · simp [h10, digsVal, digitChar_toNat h10]
    · have hdiv : n / 10 < n := Nat.div_lt_self (by omega) (by norm_num)
      simp only [h10, if_false]
      rw [digsVal_append_digit, ih _ hdiv, digitChar_toNat (Nat.mod_lt n (by norm_num))]
      omega

theorem natDigs_head_ne_zero {n : Nat} (hn : n ≠ 0) :
    ∃ c t, natDigs n = c :: t ∧ c ≠ '0' := by
  induction n using Nat.strong_induction_on with
  | _ n ih =>
    rw [natDigs_eq]
    by_cases h10 : n < 10
    · refine ⟨digitChar n, [], by simp [h10], ?_⟩
      interval_cases n <;> simp_all <;> decide
    · have hdiv : n / 10 < n := Nat.div_lt_self (by omega) (by norm_num)
      have hne : n / 10 ≠ 0 :=
        Nat.pos_iff_ne_zero.mp (Nat.div_pos (Nat.le_of_not_lt h10) (by norm_num))
      obtain ⟨c, t, hct, hc⟩ := ih (n / 10) hdiv hne
      exact ⟨c, t ++ [digitChar (n % 10)], by simp [h10, hct], hc⟩

-- ## Character-class facts

theorem isNumChar_toNat {c : Char} (h : isNumChar c = true) :
    (48 ≤ c.toNat ∧ c.toNat ≤ 57) ∨ c.toNat = 45 ∨ c.toNat = 46 := by
  simp only [isNumChar, isDigitChar, Bool.or_eq_true, decide_eq_true_eq] at h
  rcases h with h | h | h
  · exact Or.inl h
  · subst h; right; left; rfl
  · subst h; right; right; rfl

theorem isWsChar_toNat {c : Char} (h : isWsChar c = true) :
    (9 ≤ c.toNat ∧ c.toNat ≤ 13) ∨ c.toNat = 32 := by
  simp only [isWsChar, Bool.or_eq_true, decide_eq_true_eq] at h
  rcases h with ⟨h1, h2⟩ | h
  · exact Or.inl ⟨h1, h2⟩
  · subst h; right; rfl

theorem numChar_not_ws {c : Char} (h : isNumChar c = true) : isWsChar c = false := by
  by_contra hw
  have hw' := isWsChar_toNat (by simpa using hw)
  have hn := isNumChar_toNat h
  omega

theorem numStr_noWs {s : Str} (h : isNumStr s = true) :
    s.all (fun c => ¬ isWsChar c) = true := by
  simp only [isNumStr, List.all_eq_true] at h
  simp only [List.all_eq_true, decide_eq_true_eq]
  intro c hc
  simp [numChar_not_ws (h c hc)]

theorem numStr_noCRT {s : Str} (h : isNumStr s = true) : noCRT s = true := by
  simp only [isNumStr, List.all_eq_true] at h
  simp only [noCRT, List.all_eq_true, decide_eq_true_eq]
  intro c hc
  have := isNumChar_toNat (h c hc)
  intro habs
  rcases habs with h1 | h1 | h1 <;> subst h1 <;> simp_all

theorem numStr_ascii {s : Str} (h : isNumStr s = true) : isAsciiStr s = true := by
  simp only [isNumStr, List.all_eq_true] at h
  simp only [isAsciiStr, List.all_eq_true, decide_eq_true_eq]
  intro c hc
  have := isNumChar_toNat (h c hc)
  omega

theorem digit_isNum {c : Char} (h : isDigitChar c = true) : isNumChar c = true := by
  simp [isNumChar, h]

theorem digits_numStr {s : Str} (h : s.all isDigitChar = true) : isNumStr s = true := by
  simp only [List.all_eq_true] at h
  simp only [isNumStr, List.all_eq_true]
  exact fun c hc => digit_isNum (h c hc)

theorem digit_ne_signs {c : Char} (h : isDigitChar c = true) :
    c ≠ '-' ∧ c ≠ '+' ∧ c ≠ '.' := by
  refine ⟨?_, ?_, ?_⟩ <;> rintro rfl <;> exact absurd h (by decide)

-- ## parseDec / renderDec round trip

theorem parseSign_digit {c : Char} (r : Str) (h : isDigitChar c = true) :
    parseSign (c :: r) = (false, c :: r) := by
  obtain ⟨h1, h2, _⟩ := digit_ne_signs h
  simp [parseSign, h1, h2]

theorem intStr_numStr (z : Int) : isNumStr (intStr z) = true := by
  have h := digits_numStr (natDigs_all_digits z.natAbs)
  by_cases hz : z < 0
  · simp only [intStr, hz, if_true, isNumStr, List.all_cons, Bool.and_eq_true]
    exact ⟨by decide, h⟩
  · simpa [intStr, hz, isNumStr] using h

theorem intStr_ne_nil (z : Int) : intStr z ≠ [] := by
  unfold intStr
  by_cases hz : z < 0 <;> simp [hz, natDigs_ne_nil]

theorem parseDec_intStr (z : Int) :
    parseDec (intStr z) = some (decide (z < 0), natDigs z.natAbs, []) := by
  have hall := natDigs_all_digits z.natAbs
  have hsign : parseSign (intStr z) = (decide (z < 0), natDigs z.natAbs) := by
    by_cases hz : z < 0
    · simp [intStr, hz, parseSign]
    · cases h : natDigs z.natAbs with
      | nil => exact absurd h (natDigs_ne_nil _)
      | cons c t =>
        have hc : isDigitChar c = true := by
          have := hall
          rw [h] at this
          simp only [List.all_cons, Bool.and_eq_true] at this
          exact this.1
        simp [intStr, hz, h, parseSign_digit t hc]
  simp only [parseDec, hsign]
  rw [List.takeWhile_eq_self_iff.mpr (List.all_eq_true.mp hall),
    List.dropWhile_eq_nil_iff.mpr (List.all_eq_true.mp hall)]
  simp [natDigs_ne_nil]

theorem renderDec_natDigs (z : Int) :
    renderDec (decide (z < 0)) (natDigs z.natAbs) [] = intStr z := by
  have hz' : (if decide (z < 0) = true then -(z.natAbs : Int) else (z.natAbs : Int)) = z := by
    by_cases hz : z < 0
    · rw [if_pos (by simpa using hz)]
      omega
    · rw [if_neg (by simpa using hz)]
      omega
  unfold renderDec
  rw [if_pos (by simp : (([] : Str).all (· = '0')) = true), digsVal_natDigs, hz']

theorem pyCanon_intStr (z : Int) : pyCanon (intStr z) = some (intStr z) := by
  simp [pyCanon, parseDec_intStr, renderDec_natDigs]

theorem dropWhile_all {α} (p q : α → Bool) (l : List α) (h : l.all p = true) :
    (l.dropWhile q).all p = true := by
  induction l with
  | nil => rfl
  | cons a t ih =>
    simp only [List.all_cons, Bool.and_eq_true] at h
    by_cases hq : q a
    · simp [List.dropWhile, hq, ih h.2]
    · simp [List.dropWhile, hq, h.1, h.2]

theorem dropTrail_all (p : Char → Bool) (s : Str) (h : s.all p = true) :
    (dropTrailZeros s).all p = true := by
  unfold dropTrailZeros
  rw [List.all_reverse]
  exact dropWhile_all p _ _ (by simpa using h)

theorem dropTrail_not_all_zero (fp : Str) (h : fp.all (· = '0') = false) :
    (dropTrailZeros fp).all (· = '0') = false := by
  by_contra h'
  have h'' : (dropTrailZeros fp).all (· = '0') = true := by
    cases hb : (dropTrailZeros fp).all (· = '0')
    · exact absurd hb h'
    · rfl
  unfold dropTrailZeros at h''
  rw [List.all_reverse] at h''
  cases hd : List.dropWhile (· = '0') fp.reverse with
  | nil =>
    have : fp.reverse.all (· = '0') = true :=
      List.all_eq_true.mpr (List.dropWhile_eq_nil_iff.mp hd)
    rw [List.all_reverse] at this
    rw [this] at h
    exact absurd h (by simp)
  | cons c t =>
    have hc : decide (c = '0') = false := dropWhile_head_not (· = '0') fp.reverse hd
    rw [hd] at h''
    simp only [List.all_cons, Bool.and_eq_true] at h''
    rw [h''.1] at hc
    exact absurd hc (by simp)

theorem dropTrail_idem (s : Str) : dropTrailZeros (dropTrailZeros s) = dropTrailZeros s := by
  unfold dropTrailZeros
  rw [List.reverse_reverse, dropWhile_idem]

theorem pyCanon_renderDec_frac (sg : Bool) (ip fp : Str)
    (hip : ip.all isDigitChar = true) (hfp : fp.all isDigitChar = true)
    (hnz : fp.all (· = '0') = false) :
    pyCanon (renderDec sg ip fp) = some (renderDec sg ip fp) := by
  set ipc : Str := if dropLeadZeros ip = [] then ['0'] else dropLeadZeros ip with hipc_def
  set fpc : Str := dropTrailZeros fp with hfpc_def
  have hrender : renderDec sg ip fp = (if sg then ['-'] else []) ++ ipc ++ '.' :: fpc := by
    rw [renderDec, if_neg (by rw [hnz]; exact Bool.false_ne_true)]
  have hipc_digits : ipc.all isDigitChar = true := by
    by_cases h0 : dropLeadZeros ip = []
    · rw [hipc_def, if_pos h0]; decide
    · rw [hipc_def, if_neg h0]; exact dropWhile_all _ _ _ hip
  have hipc_ne : ipc ≠ [] := by
    by_cases h0 : dropLeadZeros ip = []
    · rw [hipc_def, if_pos h0]; simp
    · rw [hipc_def, if_neg h0]; exact h0
  obtain ⟨c0, t0, hipc_eq⟩ : ∃ c t, ipc = c :: t := by
    cases hc : ipc with
    | nil => exact absurd hc hipc_ne
    | cons c t => exact ⟨c, t, rfl⟩
  have hc0 : isDigitChar c0 = true := by
    rw [hipc_eq] at hipc_digits
    simp only [List.all_cons, Bool.and_eq_true] at hipc_digits
    exact hipc_digits.1
  have hfpc_digits : fpc.all isDigitChar = true := dropTrail_all _ _ hfp
  have hfpc_nz : fpc.all (· = '0') = false := dropTrail_not_all_zero fp hnz
  have hsign : parseSign (renderDec sg ip fp) = (sg, ipc ++ '.' :: fpc) := by
    rw [hrender]
    cases sg
    · simp only [if_neg Bool.false_ne_true, List.nil_append]
      rw [hipc_eq, List.cons_append]
      rw [parseSign_digit _ hc0, ← List.cons_append, ← hipc_eq]
    · simp [parseSign]
  have hsplit := takeWhile_all_append isDigitChar ipc ('.' :: fpc) hipc_digits
    (fun c t hct => by injection hct with h1 _; subst h1; decide)
  have hfp_take : fpc.takeWhile isDigitChar = fpc :=
    List.takeWhile_eq_self_iff.mpr (List.all_eq_true.mp hfpc_digits)
  have hfp_drop : fpc.dropWhile isDigitChar = [] :=
    List.dropWhile_eq_nil_iff.mpr (List.all_eq_true.mp hfpc_digits)
  have hparse : parseDec (renderDec sg ip fp) = some (sg, ipc, fpc) := by
    simp only [parseDec, hsign]
    rw [hsplit.1, hsplit.2]
    simp [hfp_take, hfp_drop, hipc_ne]
  have hrr : renderDec sg ipc fpc = renderDec sg ip fp := by
    rw [hrender, renderDec, if_neg (by rw [hfpc_nz]; exact Bool.false_ne_true)]
    have hlead : (if dropLeadZeros ipc = [] then ['0'] else dropLeadZeros ipc) = ipc := by
      by_cases h0 : dropLeadZeros ip = []
      · rw [hipc_def, if_pos h0]
        decide
      · have : dropLeadZeros ipc = ipc := by
          rw [hipc_def, if_neg h0]
          exact dropWhile_idem _ _
        rw [this, if_neg hipc_ne]
    rw [hlead, hfpc_def, dropTrail_idem]
  rw [pyCanon, hparse]
  exact congrArg some hrr

theorem takeWhile_all_self {α} (p : α → Bool) (l : List α) :
    (l.takeWhile p).all p = true :=
  List.all_eq_true.mpr fun _ hc => List.mem_takeWhile_imp hc

theorem parseDec_inv {s : Str} {sg : Bool} {ip fp : Str}
    (h : parseDec s = some (sg, ip, fp)) :
    ip.all isDigitChar = true ∧ fp.all isDigitChar = true := by
  simp only [parseDec] at h
  split at h
  · split at h
    · exact absurd h (by simp)
    · injection h with h
      rw [Prod.mk.injEq, Prod.mk.injEq] at h
      obtain ⟨-, h2, h3⟩ := h
      subst h2; subst h3
      exact ⟨takeWhile_all_self _ _, by simp⟩
  · split at h
    · split at h
      · injection h with h
        rw [Prod.mk.injEq, Prod.mk.injEq] at h
        obtain ⟨-, h2, h3⟩ := h
        subst h2; subst h3
        exact ⟨takeWhile_all_self _ _, takeWhile_all_self _ _⟩
      · exact absurd h (by simp)
    · exact absurd h (by simp)

theorem pyCanon_some_eq {s : Str} {sg : Bool} {ip fp : Str}
    (h : parseDec s = some (sg, ip, fp)) : pyCanon s = some (renderDec sg ip fp) := by
  rw [pyCanon, h]
  rfl

theorem pyCanon_idem {s t : Str} (h : pyCanon s = some t) : pyCanon t = some t := by
  rw [pyCanon] at h
  cases hp : parseDec s with
  | none => rw [hp] at h; exact absurd h (by simp)
  | some x =>
    obtain ⟨sg, ip, fp⟩ := x
    rw [hp] at h
    have ht : renderDec sg ip fp = t := by
      have h' : some (renderDec sg ip fp) = some t := h
      injection h'
    obtain ⟨hip, hfp⟩ := parseDec_inv hp
    by_cases hz : fp.all (· = '0') = true
    · have hform : renderDec sg ip fp =
          intStr (if sg then -(digsVal ip : Int) else (digsVal ip : Int)) := by
        rw [renderDec, if_pos hz]
      rw [← ht, hform]
      exact pyCanon_intStr _
    · rw [← ht]
      exact pyCanon_renderDec_frac sg ip fp hip hfp (by
        cases hb : fp.all (· = '0')
        · rfl
        · exact absurd hb hz)

theorem renderDec_numStr (sg : Bool) (ip fp : Str)
    (hip : ip.all isDigitChar = true) (hfp : fp.all isDigitChar = true) :
    isNumStr (renderDec sg ip fp) = true ∧ renderDec sg ip fp ≠ [] := by
  by_cases hz : fp.all (· = '0') = true
  · rw [renderDec, if_pos hz]
    exact ⟨intStr_numStr _, intStr_ne_nil _⟩
  · rw [renderDec, if_neg hz]
    have hA : (if sg then ['-'] else ([] : Str)).all isNumChar = true := by
      cases sg <;> decide
    have hB : (if dropLeadZeros ip = [] then ['0'] else dropLeadZeros ip).all isNumChar = true := by
      by_cases h0 : dropLeadZeros ip = []
      · rw [if_pos h0]; decide
      · rw [if_neg h0]
        have := digits_numStr (dropWhile_all isDigitChar (· = '0') ip hip)
        simpa [isNumStr, dropLeadZeros] using this
    have hC : (dropTrailZeros fp).all isNumChar = true := by
      have := digits_numStr (dropTrail_all isDigitChar fp hfp)
      simpa [isNumStr] using this
    constructor
    · simp only [isNumStr, List.all_append, List.all_cons, Bool.and_eq_true]
      exact ⟨⟨hA, hB⟩, by decide, hC⟩
    · simp

theorem pyCanon_some_shape {s t : Str} (h : pyCanon s = some t) :
    isNumStr t = true ∧ t ≠ [] := by
  rw [pyCanon] at h
  cases hp : parseDec s with
  | none => rw [hp] at h; exact absurd h (by simp)
  | some x =>
    obtain ⟨sg, ip, fp⟩ := x
    rw [hp] at h
    have ht : renderDec sg ip fp = t := by
      have h' : some (renderDec sg ip fp) = some t := h
      injection h'
    obtain ⟨hip, hfp⟩ := parseDec_inv hp
    rw [← ht]
    exact renderDec_numStr sg ip fp hip hfp

theorem parseSign_cases (s : Str) :
    s = (if (parseSign s).1 then ['-'] else []) ++ (parseSign s).2 ∨
    (s = '+' :: (parseSign s).2 ∧ (parseSign s).1 = false) := by
  cases s with
  | nil => left; rfl
  | cons c r =>
    by_cases hm : c = '-'
    · subst hm; left; simp [parseSign]
    · by_cases hp : c = '+'
      · subst hp; right; simp [parseSign]
      · left; simp [parseSign, hm, hp]

theorem digits_ascii {l : Str} (h : l.all isDigitChar = true) :
    l.all (fun c => c.toNat < 128) = true := by
  simp only [List.all_eq_true, decide_eq_true_eq] at h ⊢
  intro c hc
  have := h c hc
  simp only [isDigitChar, decide_eq_true_eq] at this
  omega

theorem parseDec_some_ascii {s : Str} {x : Bool × Str × Str}
    (h : parseDec s = some x) : isAsciiStr s = true := by
  have hdecomp := (List.takeWhile_append_dropWhile isDigitChar (parseSign s).2).symm
  have hip := takeWhile_all_self isDigitChar (parseSign s).2
  have hr_ascii : (parseSign s).2.all (fun c => c.toNat < 128) = true → isAsciiStr s = true := by
    intro hr
    rcases parseSign_cases s with hs | ⟨hs, -⟩
    · rw [isAsciiStr, hs, List.all_append]
      have : (if (parseSign s).1 then ['-'] else ([] : Str)).all
          (fun c => c.toNat < 128) = true := by
        cases h1 : (parseSign s).1 <;> decide
      rw [this, hr]
      rfl
    · rw [isAsciiStr, hs, List.all_cons, hr]
      rfl
  simp only [parseDec] at h
  split at h
  · rename_i hr2
    apply hr_ascii
    rw [hdecomp, hr2, List.append_nil]
    exact digits_ascii hip
  · split at h
    · split at h
      · rename_i hr2 hdot hcond
        apply hr_ascii
        have hr2ne : List.dropWhile isDigitChar (parseSign s).2 ≠ [] := hr2
        have hhead : List.dropWhile isDigitChar (parseSign s).2 =
            '.' :: (List.dropWhile isDigitChar (parseSign s).2).tail := by
          cases hc : List.dropWhile isDigitChar (parseSign s).2 with
          | nil => exact absurd hc hr2ne
          | cons a t =>
            rw [hc] at hdot
            simp only [List.head?] at hdot
            injection hdot with hdot
            subst hdot
            rfl
        have htail : ((List.dropWhile isDigitChar (parseSign s).2).tail).all
            isDigitChar = true := by
          have hd := (List.takeWhile_append_dropWhile isDigitChar
            ((List.dropWhile isDigitChar (parseSign s).2).tail)).symm
          rw [hcond.1, List.append_nil] at hd
          rw [hd]
          exact takeWhile_all_self _ _
        rw [hdecomp, hhead, List.all_append, List.all_cons]
        rw [digits_ascii hip, digits_ascii htail]
        rfl
      · exact absurd h (by simp)
    · exact absurd h (by simp)

-- ## cleanWS / noCRT facts

theorem noCRT_cleanWS (s : Str) : noCRT (cleanWS s) = true := by
  simp only [noCRT, cleanWS, List.all_map, List.all_eq_true, Function.comp]
  intro c _
  by_cases hc : c = '\n' ∨ c = '\r' ∨ c = '\t' <;> simp [hc]

theorem cleanWS_of_noCRT {s : Str} (h : noCRT s = true) : cleanWS s = s := by
  simp only [noCRT, List.all_eq_true, decide_eq_true_eq] at h
  simp only [cleanWS]
  conv_rhs => rw [← List.map_id s]
  apply List.map_congr_left
  intro c hc
  simp [h c hc]

theorem noCRT_infix {a m b : Str} (h : noCRT (a ++ m ++ b) = true) : noCRT m = true := by
  simp only [noCRT, List.all_append, Bool.and_eq_true] at h
  exact h.1.2

theorem noCRT_pyStrip {s : Str} (h : noCRT s = true) : noCRT (pyStrip s) = true := by
  obtain ⟨a, b, hd, -, -⟩ := pyStrip_decomp s
  rw [hd] at h
  exact noCRT_infix h

theorem wsChar_ascii {c : Char} (h : isWsChar c = true) : c.toNat < 128 := by
  have := isWsChar_toNat h
  omega

theorem wsStr_ascii {l : Str} (h : l.all isWsChar = true) :
    l.all (fun c => c.toNat < 128) = true := by
  simp only [List.all_eq_true, decide_eq_true_eq] at h ⊢
  exact fun c hc => wsChar_ascii (h c hc)

-- ## C3: normalization idempotence

/-- Auxiliary: re-normalizing a canonical numeric string returns it unchanged. -/
theorem normalize_canonical_fixed (nfc : Str → Str)
    (hNum : ∀ s, isNumStr s = true → nfc s = s)
    {t : Str} (hnum : isNumStr t = true) (hne : t ≠ []) (hcan : pyCanon t = some t) :
    normalize_value nfc (.strV t) = some t := by
  have hfix : nfc t = t := hNum t hnum
  have hclean : cleanWS t = t := cleanWS_of_noCRT (numStr_noCRT hnum)
  have hstr : pyStrip t = t := pyStrip_of_noWs t (numStr_noWs hnum)
  simp only [normalize_value, if_neg hne, hclean, hstr, hcan, hfix]

/-- Auxiliary: value of `normalize_value` on an integer scalar. -/
theorem normalize_intV (nfc : Str → Str)
    (hNum : ∀ s, isNumStr s = true → nfc s = s) (n : Int) :
    normalize_value nfc (.intV n) = some (intStr n) := by
  simp only [normalize_value, hNum _ (intStr_numStr n),
    pyStrip_of_noWs _ (numStr_noWs (intStr_numStr n))]

/-- C3 (amended): normalization is idempotent on every raw scalar whose
normalization is truthy (non-empty); a null or empty input normalizes to
`None`, a whitespace-only input normalizes to the empty string, and both are
falsy ("absent") and dropped by every caller — but re-normalizing the empty
string yields `None`, not the empty string, so `normalize(normalize(x)) ==
normalize(x)` holds only for inputs with truthy normalizations.  The `nfc`
hypotheses state properties of real Unicode NFC: it fixes numeric ASCII
strings, cannot introduce CR/LF/TAB, returns ASCII output only on equal
ASCII input, and stripping an NFC-normal string leaves it normal. -/
theorem C3_normalize_idempotence_amended (nfc : Str → Str)
    (hNum : ∀ s, isNumStr s = true → nfc s = s)
    (hCRT : ∀ s, noCRT s = true → noCRT (nfc s) = true)
    (hAscii : ∀ s, isAsciiStr (nfc s) = true → nfc s = s)
    (hStrip : ∀ s, pyStrip (nfc (pyStrip (nfc s))) = pyStrip (nfc s))
    (v : RawScalar) :
    (isTruthyOpt (normalize_value nfc v) = true →
      normalize_value nfc (reinject (normalize_value nfc v)) = normalize_value nfc v)
    ∧ (isTruthyOpt (normalize_value nfc v) = false →
      normalize_value nfc (reinject (normalize_value nfc v)) = none)
    ∧ normalize_value nfc .null = none
    ∧ normalize_value nfc (.strV []) = none := by
  refine ⟨?_, ?_, rfl, rfl⟩
  · intro h
    cases v with
    | null => simp [normalize_value, isTruthyOpt] at h
    | intV n =>
      rw [normalize_intV nfc hNum n]
      exact normalize_canonical_fixed nfc hNum (intStr_numStr n) (intStr_ne_nil n)
        (pyCanon_intStr n)
    | strV s =>
      by_cases hs : s = []
      · subst hs; simp [normalize_value, isTruthyOpt] at h
      · cases hcan : pyCanon (pyStrip (cleanWS s)) with
        | some t =>
          obtain ⟨hnum, hne⟩ := pyCanon_some_shape hcan
          have hval : normalize_value nfc (.strV s) = some t := by
            simp only [normalize_value, if_neg hs, hcan, hNum t hnum,
              pyStrip_of_noWs t (numStr_noWs hnum)]
          rw [hval]
          exact normalize_canonical_fixed nfc hNum hnum hne (pyCanon_idem hcan)
        | none =>
          have hval : normalize_value nfc (.strV s) = some (pyStrip (nfc (cleanWS s))) := by
            simp only [normalize_value, if_neg hs, hcan]
          rw [hval] at h ⊢
          have hne : pyStrip (nfc (cleanWS s)) ≠ [] := by simpa [isTruthyOpt] using h
          have hnoCRT1 : noCRT (pyStrip (nfc (cleanWS s))) = true :=
            noCRT_pyStrip (hCRT _ (noCRT_cleanWS s))
          have hclean1 : cleanWS (pyStrip (nfc (cleanWS s))) = pyStrip (nfc (cleanWS s)) :=
            cleanWS_of_noCRT hnoCRT1
          have hstrip1 : pyStrip (pyStrip (nfc (cleanWS s))) = pyStrip (nfc (cleanWS s)) :=
            pyStrip_idem _
          have hcan1 : pyCanon (pyStrip (nfc (cleanWS s))) = none := by
            cases hpc : pyCanon (pyStrip (nfc (cleanWS s))) with
            | none => rfl
            | some u =>
              exfalso
              obtain ⟨x, hx⟩ : ∃ x, parseDec (pyStrip (nfc (cleanWS s))) = some x := by
                rw [pyCanon] at hpc
                cases hpd : parseDec (pyStrip (nfc (cleanWS s))) with
                | none => rw [hpd] at hpc; exact absurd hpc (by simp)
                | some y => exact ⟨y, rfl⟩
              have hascii1 : isAsciiStr (pyStrip (nfc (cleanWS s))) = true :=
                parseDec_some_ascii hx
              obtain ⟨a, b, hdeco, hwa, hwb⟩ := pyStrip_decomp (nfc (cleanWS s))
              generalize hP : pyStrip (nfc (cleanWS s)) = P at hdeco hascii1 hpc
              have hascii : isAsciiStr (nfc (cleanWS s)) = true := by
                rw [isAsciiStr, hdeco, List.all_append, List.all_append]
                rw [wsStr_ascii hwa, wsStr_ascii hwb]
                rw [show P.all (fun c => c.toNat < 128) = true from hascii1]
                rfl
              have hfixc : nfc (cleanWS s) = cleanWS s := hAscii _ hascii
              rw [hfixc] at hP
              rw [hP] at hcan
              rw [hcan] at hpc
              exact absurd hpc (by simp)
          simp only [reinject, normalize_value, if_neg hne, hclean1, hstrip1, hcan1]
          rw [hStrip (cleanWS s)]
  · intro h
    cases hn : normalize_value nfc v with
    | none => simp [reinject, normalize_value]
    | some s =>
      rw [hn] at h
      have hs : s = [] := by simpa [isTruthyOpt] using h
      subst hs
      simp [reinject, normalize_value]

/-- C3 counterexample: the claim as stated is false — a whitespace-only cell
normalizes to the empty string, and re-normalizing the empty string gives
`None`, which is a different value (in Python, `"" == None` is `False`). -/
theorem C3_normalize_idempotence_counterexample :
    normalize_value nfcId (reinject (normalize_value nfcId (.strV [' ']))) ≠
      normalize_value nfcId (.strV [' ']) := by decide

/-- C3 witness: the amended theorem applied at a concrete numeric text cell. -/
theorem C3_normalize_idempotence_witness :
    isTruthyOpt (normalize_value nfcId (.strV (" 3.50".toList))) = true ∧
    normalize_value nfcId (reinject (normalize_value nfcId (.strV (" 3.50".toList)))) =
      normalize_value nfcId (.strV (" 3.50".toList)) :=
  ⟨by decide,
    (C3_normalize_idempotence_amended nfcId (fun _ _ => rfl) (fun _ h => h)
      (fun _ _ => rfl) (fun s => by simpa [nfcId] using pyStrip_idem s) (.strV (" 3.50".toList))).1
      (by decide)⟩

-- ## C5: the smart splitter agrees with the claim-side splitter

theorem splitSmartGoF_congr (d : Str) (f1 : Nat) : ∀ (f2 : Nat) (acc rest : Str),
    rest.length < f1 → rest.length < f2 →
    splitSmartGoF d f1 acc rest = splitSmartGoF d f2 acc rest := by
  induction f1 with
  | zero => intro f2 acc rest h1; omega
  | succ g1 ih =>
    intro f2 acc rest h1 h2
    cases f2 with
    | zero => omega
    | succ g2 =>
      cases rest with
      | nil => rfl
      | cons c r =>
        simp only [splitSmartGoF]
        split
        · rename_i hcond
          have hd : d ≠ [] := hcond.1
          have hlen : (List.dropWhile isWsChar (List.drop d.length (c :: r))).length
              ≤ r.length := by
            have h3 := (List.dropWhile_sublist (l := List.drop d.length (c :: r))
              isWsChar).length_le
            have h4 : (List.drop d.length (c :: r)).length = (c :: r).length - d.length :=
              List.length_drop _ _
            have h5 : 1 ≤ d.length := by
              cases d with
              | nil => exact absurd rfl hd
              | cons x xs => simp
            simp only [List.length_cons] at h4
            omega
          rw [ih g2 [] _ (by simp at h1 ⊢; omega) (by simp at h2 ⊢; omega)]
        · rw [ih g2 (c :: acc) r (by simp at h1 ⊢; omega) (by simp at h2 ⊢; omega)]

theorem splitSmart_nil (d : Str) : splitSmart d [] = [[]] := rfl

theorem splitSmartGoF_cons (d acc : Str) (c : Char) (r : Str) :
    splitSmartGoF d ((c :: r).length + 1) acc (c :: r) =
      if d ≠ [] ∧ d.isPrefixOf (c :: r) ∧ prefixFollows (List.drop d.length (c :: r))
      then acc.reverse :: splitSmart d (List.dropWhile isWsChar (List.drop d.length (c :: r)))
      else splitSmartGoF d (r.length + 1) (c :: acc) r := by
  have hstep : splitSmartGoF d ((c :: r).length + 1) acc (c :: r) =
      if d ≠ [] ∧ d.isPrefixOf (c :: r) ∧ prefixFollows (List.drop d.length (c :: r))
      then acc.reverse :: splitSmartGoF d ((c :: r).length)
          [] (List.dropWhile isWsChar (List.drop d.length (c :: r)))
      else splitSmartGoF d ((c :: r).length) (c :: acc) r := rfl
  rw [hstep]
  split
  · rename_i hcond
    have hd : d ≠ [] := hcond.1
    have hlen : (List.dropWhile isWsChar (List.drop d.length (c :: r))).length ≤ r.length := by
      have h3 := (List.dropWhile_sublist (l := List.drop d.length (c :: r))
        isWsChar).length_le
      have h4 : (List.drop d.length (c :: r)).length = (c :: r).length - d.length :=
        List.length_drop _ _
      have h5 : 1 ≤ d.length := by
        cases d with
        | nil => exact absurd rfl hd
        | cons x xs => simp
      simp only [List.length_cons] at h4
      omega
    rw [splitSmartGoF_congr d ((c :: r).length)
      ((List.dropWhile isWsChar (List.drop d.length (c :: r))).length + 1) []
      (List.dropWhile isWsChar (List.drop d.length (c :: r)))
      (by simp only [List.length_cons]; omega) (by omega)]
    rfl
  · rw [splitSmartGoF_congr d ((c :: r).length) (r.length + 1) (c :: acc) r
      (by simp) (by omega)]

theorem splitSmart_acc_decomp (d : Str) : ∀ (rest : Str),
    ∃ h t, splitSmart d rest = h :: t ∧
      ∀ acc, splitSmartGoF d (rest.length + 1) acc rest = (acc.reverse ++ h) :: t := by
  intro rest
  induction rest with
  | nil => exact ⟨[], [], rfl, fun acc => by simp [splitSmartGoF]⟩
  | cons c r ih =>
    by_cases hcond : d ≠ [] ∧ d.isPrefixOf (c :: r) ∧ prefixFollows (List.drop d.length (c :: r))
    · refine ⟨[], splitSmart d (List.dropWhile isWsChar (List.drop d.length (c :: r))), ?_, ?_⟩
      · rw [splitSmart, splitSmartGoF_cons, if_pos hcond]
        rfl
      · intro acc
        rw [splitSmartGoF_cons, if_pos hcond]
        simp
    · obtain ⟨h, t, hht, hacc⟩ := ih
      refine ⟨c :: h, t, ?_, ?_⟩
      · rw [splitSmart, splitSmartGoF_cons, if_neg hcond, hacc [c]]
        rfl
      · intro acc
        rw [splitSmartGoF_cons, if_neg hcond, hacc (c :: acc)]
        simp

theorem claimSplit_ne_nil (dc : Char) (s : Str) : claimSplit dc s ≠ [] := by
  induction s with
  | nil => simp [claimSplit]
  | cons c r ih =>
    simp only [claimSplit]
    split
    · simp
    · cases hc : claimSplit dc r with
      | nil => exact absurd hc ih
      | cons h t => simp [List.modifyHead]

theorem claimSplit_ws_head (dc : Char) (hdc : isWsChar dc = false) : ∀ s : Str,
    claimSplit dc s =
      (claimSplit dc (s.dropWhile isWsChar)).modifyHead ((s.takeWhile isWsChar) ++ ·) := by
  intro s
  induction s with
  | nil =>
    simp [claimSplit, List.modifyHead]
  | cons c r ih =>
    by_cases hw : isWsChar c = true
    · have hcdc : ¬(c = dc ∧ prefixFollows r = true) := by
        rintro ⟨rfl, -⟩
        rw [hw] at hdc
        exact absurd hdc (by simp)
      rw [claimSplit]
      rw [if_neg hcdc, ih]
      rw [List.dropWhile_cons_of_pos hw, List.takeWhile_cons_of_pos hw]
      cases hcs : claimSplit dc (r.dropWhile isWsChar) with
      | nil => exact absurd hcs (claimSplit_ne_nil dc _)
      | cons h t => simp [List.modifyHead]
    · have hw' : isWsChar c = false := by
        cases hb : isWsChar c
        · rfl
        · exact absurd hb hw
      rw [List.dropWhile_cons_of_neg (by simp [hw']), List.takeWhile_cons_of_neg (by simp [hw'])]
      cases hcs : claimSplit dc (c :: r) with
      | nil => exact absurd hcs (claimSplit_ne_nil dc _)
      | cons h t => simp [List.modifyHead]

theorem singleton_isPrefixOf (dc c : Char) (r : Str) :
    ([dc].isPrefixOf (c :: r)) = (dc == c) := by
  simp [List.isPrefixOf]

theorem smart_claim_strip (dc : Char) (hdc : isWsChar dc = false) : ∀ s : Str,
    ∃ h t t', splitSmart [dc] s = h :: t ∧ claimSplit dc s = h :: t' ∧
      t.map pyStrip = t'.map pyStrip := by
  suffices H : ∀ (n : Nat) (s : Str), s.length = n →
      ∃ h t t', splitSmart [dc] s = h :: t ∧ claimSplit dc s = h :: t' ∧
        t.map pyStrip = t'.map pyStrip by
    intro s
    exact H s.length s rfl
  intro n
  induction n using Nat.strong_induction_on with
  | _ n ih =>
    intro s hn
    cases s with
    | nil => exact ⟨[], [], [], rfl, rfl, rfl⟩
    | cons c r =>
      have hcondiff : ([dc] ≠ [] ∧ [dc].isPrefixOf (c :: r) = true ∧
          prefixFollows (List.drop (List.length [dc]) (c :: r)) = true) ↔
          (c = dc ∧ prefixFollows r = true) := by
        rw [singleton_isPrefixOf]
        constructor
        · rintro ⟨-, h1, h2⟩
          have : dc = c := by simpa using h1
          subst this
          exact ⟨rfl, by simpa using h2⟩
        · rintro ⟨rfl, h2⟩
          exact ⟨by simp, by simp, by simpa using h2⟩
      by_cases hcond : c = dc ∧ prefixFollows r = true
      · have hs : splitSmart [dc] (c :: r) =
            [] :: splitSmart [dc] (r.dropWhile isWsChar) := by
          rw [splitSmart, splitSmartGoF_cons, if_pos (hcondiff.mpr hcond)]
          rfl
        have hc : claimSplit dc (c :: r) = [] :: claimSplit dc r := by
          rw [claimSplit, if_pos hcond]
        obtain ⟨h1, t1, t1', e1, e2, e3⟩ := ih (r.dropWhile isWsChar).length
          (by
            have := (List.dropWhile_sublist (l := r) isWsChar).length_le
            simp only [List.length_cons] at hn
            omega)
          (r.dropWhile isWsChar) rfl
        refine ⟨[], splitSmart [dc] (r.dropWhile isWsChar), claimSplit dc r, hs, hc, ?_⟩
        rw [claimSplit_ws_head dc hdc r, e2, e1]
        simp only [List.modifyHead, List.map_cons, e3]
        rw [pyStrip_ws_head _ _ (by
          simp only [List.all_eq_true]
          exact fun x hx => List.mem_takeWhile_imp hx)]
      · obtain ⟨h2, t2, hht2, hacc2⟩ := splitSmart_acc_decomp [dc] r
        have hs : splitSmart [dc] (c :: r) = (c :: h2) :: t2 := by
          rw [splitSmart, splitSmartGoF_cons, if_neg ((not_congr hcondiff).mpr hcond),
            hacc2 [c]]
          rfl
        obtain ⟨h3, t3, t3', e1, e2, e3⟩ := ih r.length
          (by simp only [List.length_cons] at hn; omega) r rfl
        have hh : h2 = h3 ∧ t2 = t3 := by
          rw [hht2] at e1
          exact ⟨by injection e1, by injection e1⟩
        obtain ⟨rfl, rfl⟩ := hh
        have hcl : claimSplit dc (c :: r) = (c :: h2) :: t3' := by
          rw [claimSplit, if_neg hcond, e2]
          rfl
        exact ⟨c :: h2, t2, t3', hs, hcl, e3⟩

/-- C5: for identifier-like elements the splitter cuts exactly at the
delimiter positions that are followed (after optional whitespace) by another
known prefix — `splitSmart` agrees with the claim-side `claimSplit` modulo
the stripping that `process_field` applies to every piece — and the two
concrete examples of the claim hold. -/
theorem C5_splitter_identifier_protection :
    (∀ dc : Char, isWsChar dc = false → ∀ s : Str,
      (splitSmart [dc] s).map pyStrip = (claimSplit dc s).map pyStrip)
    ∧ process_field (.scalar (.strV ("m_vol_1;p_2".toList))) (some (";".toList)) false
        = ["m_vol_1".toList, "p_2".toList]
    ∧ process_field (.scalar (.strV ("milk; bread".toList))) (some (";".toList)) false
        = ["milk".toList, "bread".toList] := by
  refine ⟨?_, by decide, by decide⟩
  intro dc hdc s
  obtain ⟨h, t, t', e1, e2, e3⟩ := smart_claim_strip dc hdc s
  rw [e1, e2]
  simp only [List.map_cons, e3]

/-- C5 witness: the refinement applied at the delimiter `';'` and the
claim's own identifier example. -/
theorem C5_splitter_identifier_protection_witness :
    (splitSmart [';'] "m_vol_1;p_2".toList).map pyStrip =
      (claimSplit ';' "m_vol_1;p_2".toList).map pyStrip :=
  C5_splitter_identifier_protection.1 ';' (by decide) "m_vol_1;p_2".toList

-- ## C6: process_field without a delimiter

/-- C6 (amended): with no delimiter `process_field` returns the stringified
elements unsplit and in order — without deduplication, stripping or
lower-casing (the source returns `np.array(string_field)` directly). -/
theorem C6_no_delimiter_amended (field : PyField) (lower : Bool) :
    process_field field none lower = (fieldElems field).map pyStr := rfl

/-- C6 counterexample: the claim says duplicates within one field collapse,
but a two-element field holding the same string twice comes back with both
copies. -/
theorem C6_no_delimiter_counterexample :
    process_field (.list [.strV ("a".toList), .strV ("a".toList)]) none false
      = ["a".toList, "a".toList] ∧
    ¬ (process_field (.list [.strV ("a".toList), .strV ("a".toList)]) none false).Nodup :=
  ⟨by decide, by decide⟩

-- ## C7: type resolution precedence

/-- C7: in a dynamically-typed column the value's type is resolved
case-insensitively, and the first configured prefix-map entry whose
(lowered) prefix matches wins — the loop equals `List.find?` over the table
in configuration order.  In particular `"m_vol_7"` (and `"M_VOL_7"`)
resolves to `manifestation`, not to a different type via the shorter `m_`
entry. -/
theorem C7_type_resolution_precedence :
    (∀ (vl : Str) (pm : List (Str × Str)),
      prefixLoop vl pm = (pm.find? (fun pe => (pyLower pe.1).isPrefixOf vl)).map (·.2))
    ∧ get_dynamic_entity_type ("MENTIONING_ID".toList) "m_vol_7".toList []
        = some ("manifestation".toList)
    ∧ get_dynamic_entity_type ("MENTIONING_ID".toList) "M_VOL_7".toList []
        = some ("manifestation".toList)
    ∧ (prefix_map.find? (fun pe =>
        (pyLower pe.1).isPrefixOf (pyLower ("m_vol_7".toList)))).map (·.2)
        = some ("manifestation".toList) := by
  refine ⟨?_, by decide, by decide, by decide⟩
  intro vl pm
  induction pm with
  | nil => rfl
  | cons e rest ih =>
    obtain ⟨p, t⟩ := e
    by_cases hp : (pyLower p).isPrefixOf vl = true
    · simp [prefixLoop, List.find?, hp]
    · have hp' : (pyLower p).isPrefixOf vl = false := by
        cases hb : (pyLower p).isPrefixOf vl
        · rfl
        · exact absurd hb hp
      simp [prefixLoop, List.find?, hp', ih]

-- ## C10: splitter prefixes are case-sensitive, resolver prefixes are not

/-- C10: the splitter's identifier classification uses case-sensitive
`startswith` (`"p_1..."` is identifier-like, `"P_1..."` is not; `"PO_x"` is,
`"po_x"` is not), so a `"P_"`-value is split at every delimiter occurrence
where the same value spelled `"p_"` would be protected — while
`get_dynamic_entity_type` lowercases both sides and assigns the prefix's
entity type to either spelling. -/
theorem C10_case_sensitivity_split_vs_resolve :
    isIdString ("p_1;b".toList) = true
    ∧ isIdString ("P_1;b".toList) = false
    ∧ process_field (.scalar (.strV ("p_1;b".toList))) (some (";".toList)) false
        = ["p_1;b".toList]
    ∧ process_field (.scalar (.strV ("P_1;b".toList))) (some (";".toList)) false
        = ["P_1".toList, "b".toList]
    ∧ get_dynamic_entity_type ("PERSON_CHARACTER_ID_A".toList) "P_1".toList []
        = some ("person".toList)
    ∧ get_dynamic_entity_type ("PERSON_CHARACTER_ID_A".toList) "p_1".toList []
        = some ("person".toList)
    ∧ isIdString ("PO_x".toList) = true
    ∧ isIdString ("po_x".toList) = false
    ∧ get_dynamic_entity_type ("OWNERSHIP_OF_PHYSICAL_OBJECT_ID".toList) "po_x".toList []
        = some ("physical_object".toList) := by
  refine ⟨by decide, by decide, by decide, by decide, by decide, by decide, by decide,
    by decide, by decide⟩

-- ## C8: deterministic relation ordering

theorem strLt_irrefl (s : Str) : strLt s s = false := by
  induction s with
  | nil => rfl
  | cons a t ih => simp [strLt, ih]

theorem strLt_cons_iff {a b : Char} {s t : Str} :
    strLt (a :: s) (b :: t) = true ↔ a < b ∨ (a = b ∧ strLt s t = true) := by
  by_cases h1 : a < b
  · simp [strLt, h1]
  · by_cases h2 : b < a
    · have hne : a ≠ b := ne_of_gt h2
      simp [strLt, h1, h2, hne]
    · have heq : a = b := le_antisymm (le_of_not_lt h2) (le_of_not_lt h1)
      simp [strLt, h1, h2, heq]

theorem strLt_trichotomy (s : Str) : ∀ t : Str, strLt s t = true ∨ s = t ∨ strLt t s = true := by
  induction s with
  | nil =>
    intro t
    cases t with
    | nil => right; left; rfl
    | cons b u => left; rfl
  | cons a s ih =>
    intro t
    cases t with
    | nil => right; right; rfl
    | cons b u =>
      rcases lt_trichotomy a b with hab | hab | hab
      · left; rw [strLt_cons_iff]; exact Or.inl hab
      · subst hab
        rcases ih u with h | h | h
        · left; rw [strLt_cons_iff]; exact Or.inr ⟨rfl, h⟩
        · right; left; rw [h]
        · right; right; rw [strLt_cons_iff]; exact Or.inr ⟨rfl, h⟩
      · right; right; rw [strLt_cons_iff]; exact Or.inl hab

theorem strLt_trans : ∀ s t u : Str, strLt s t = true → strLt t u = true →
    strLt s u = true := by
  intro s
  induction s with
  | nil =>
    intro t u h1 h2
    cases t with
    | nil => exact absurd h1 (by simp [strLt])
    | cons b t' =>
      cases u with
      | nil => exact absurd h2 (by simp [strLt])
      | cons c u' => rfl
  | cons a s ih =>
    intro t u h1 h2
    cases t with
    | nil => exact absurd h1 (by simp [strLt])
    | cons b t' =>
      cases u with
      | nil => exact absurd h2 (by simp [strLt])
      | cons c u' =>
        rw [strLt_cons_iff] at h1 h2 ⊢
        rcases h1 with h1 | ⟨rfl, h1⟩
        · rcases h2 with h2 | ⟨rfl, h2⟩
          · exact Or.inl (lt_trans h1 h2)
          · exact Or.inl h1
        · rcases h2 with h2 | ⟨rfl, h2⟩
          · exact Or.inl h2
          · exact Or.inr ⟨rfl, ih t' u' h1 h2⟩

theorem strLt_asymm {s t : Str} (h : strLt s t = true) : strLt t s = false := by
  cases hb : strLt t s
  · rfl
  · have := strLt_trans s t s h hb
    rw [strLt_irrefl] at this
    exact absurd this (by simp)

theorem keyLt_iff {a b : Str × Str × Str} :
    keyLt a b = true ↔ strLt a.1 b.1 = true ∨ (a.1 = b.1 ∧
      (strLt a.2.1 b.2.1 = true ∨ (a.2.1 = b.2.1 ∧ strLt a.2.2 b.2.2 = true))) := by
  simp [keyLt]

theorem keyLt_irrefl (a : Str × Str × Str) : keyLt a a = false := by
  cases hb : keyLt a a
  · rfl
  · rw [keyLt_iff] at hb
    rcases hb with h | ⟨-, h | ⟨-, h⟩⟩ <;> rw [strLt_irrefl] at h <;> exact absurd h (by simp)

theorem keyLt_trans {a b c : Str × Str × Str} (h1 : keyLt a b = true)
    (h2 : keyLt b c = true) : keyLt a c = true := by
  rw [keyLt_iff] at h1 h2 ⊢
  rcases h1 with h1 | ⟨e1, h1⟩
  · rcases h2 with h2 | ⟨e2, h2⟩
    · exact Or.inl (strLt_trans _ _ _ h1 h2)
    · exact Or.inl (e2 ▸ h1)
  · rcases h2 with h2 | ⟨e2, h2⟩
    · exact Or.inl (e1 ▸ h2)
    · refine Or.inr ⟨e1.trans e2, ?_⟩
      rcases h1 with h1 | ⟨f1, h1⟩
      · rcases h2 with h2 | ⟨f2, h2⟩
        · exact Or.inl (strLt_trans _ _ _ h1 h2)
        · exact Or.inl (f2 ▸ h1)
      · rcases h2 with h2 | ⟨f2, h2⟩
        · exact Or.inl (f1 ▸ h2)
        · exact Or.inr ⟨f1.trans f2, strLt_trans _ _ _ h1 h2⟩

theorem keyLt_trichotomy (a b : Str × Str × Str) :
    keyLt a b = true ∨ a = b ∨ keyLt b a = true := by
  obtain ⟨a1, a2, a3⟩ := a
  obtain ⟨b1, b2, b3⟩ := b
  rcases strLt_trichotomy a1 b1 with h1 | h1 | h1
  · left; rw [keyLt_iff]; exact Or.inl h1
  · subst h1
    rcases strLt_trichotomy a2 b2 with h2 | h2 | h2
    · left; rw [keyLt_iff]; exact Or.inr ⟨rfl, Or.inl h2⟩
    · subst h2
      rcases strLt_trichotomy a3 b3 with h3 | h3 | h3
      · left; rw [keyLt_iff]; exact Or.inr ⟨rfl, Or.inr ⟨rfl, h3⟩⟩
      · subst h3; right; left; rfl
      · right; right; rw [keyLt_iff]; exact Or.inr ⟨rfl, Or.inr ⟨rfl, h3⟩⟩
    · right; right; rw [keyLt_iff]; exact Or.inr ⟨rfl, Or.inl h2⟩
  · right; right; rw [keyLt_iff]; exact Or.inl h1

theorem keyLt_asymm {a b : Str × Str × Str} (h : keyLt a b = true) :
    keyLt b a = false := by
  cases hb : keyLt b a
  · rfl
  · have := keyLt_trans h hb
    rw [keyLt_irrefl] at this
    exact absurd this (by simp)

theorem relLe_iff {t1 t2 : RelTuple} :
    relLe t1 t2 = true ↔ keyLt (sortKey t1) (sortKey t2) = true ∨ sortKey t1 = sortKey t2 := by
  simp [relLe]

theorem relLe_total (a b : RelTuple) : relLe a b = true ∨ relLe b a = true := by
  rcases keyLt_trichotomy (sortKey a) (sortKey b) with h | h | h
  · left; rw [relLe_iff]; exact Or.inl h
  · left; rw [relLe_iff]; exact Or.inr h
  · right; rw [relLe_iff]; exact Or.inl h

theorem relLe_trans (a b c : RelTuple) (h1 : relLe a b = true) (h2 : relLe b c = true) :
    relLe a c = true := by
  rw [relLe_iff] at h1 h2 ⊢
  rcases h1 with h1 | h1
  · rcases h2 with h2 | h2
    · exact Or.inl (keyLt_trans h1 h2)
    · exact Or.inl (h2 ▸ h1)
  · rcases h2 with h2 | h2
    · exact Or.inl (h1 ▸ h2)
    · exact Or.inr (h1.trans h2)

theorem relLe_antisymm_key {a b : RelTuple} (h1 : relLe a b = true)
    (h2 : relLe b a = true) : sortKey a = sortKey b := by
  rw [relLe_iff] at h1 h2
  rcases h1 with h1 | h1
  · rcases h2 with h2 | h2
    · rw [keyLt_asymm h1] at h2; exact absurd h2 (by simp)
    · exact h2.symm
  · exact h1

theorem sorted_key_inj_eq : ∀ (l1 l2 : List RelTuple),
    l1.Perm l2 →
    l1.Pairwise (fun a b => relLe a b = true) →
    l2.Pairwise (fun a b => relLe a b = true) →
    (∀ a ∈ l1, ∀ b ∈ l1, sortKey a = sortKey b → a = b) →
    l1 = l2 := by
  intro l1
  induction l1 with
  | nil => intro l2 hperm _ _ _; exact (List.Perm.nil_eq hperm).symm.symm ▸ hperm.nil_eq
  | cons a t1 ih =>
    intro l2 hperm hs1 hs2 hinj
    cases l2 with
    | nil => exact absurd hperm.symm.nil_eq (by simp)
    | cons b t2 =>
      have hab : a = b := by
        by_contra hne
        have hbmem : b ∈ a :: t1 := hperm.mem_iff.mpr (by simp)
        have hamem : a ∈ b :: t2 := hperm.mem_iff.mp (by simp)
        have hb1 : b ∈ t1 := by
          rcases List.mem_cons.mp hbmem with h | h
          · exact absurd h.symm hne
          · exact h
        have ha2 : a ∈ t2 := by
          rcases List.mem_cons.mp hamem with h | h
          · exact absurd h hne
          · exact h
        have h1 : relLe a b = true := (List.pairwise_cons.mp hs1).1 b hb1
        have h2 : relLe b a = true := (List.pairwise_cons.mp hs2).1 a ha2
        exact hne (hinj a (by simp) b (by simp [hb1]) (relLe_antisymm_key h1 h2))
      subst hab
      have hperm' : t1.Perm t2 := hperm.cons_inv
      have := ih t2 hperm' (List.pairwise_cons.mp hs1).2 (List.pairwise_cons.mp hs2).2
        (fun x hx y hy hk => hinj x (by simp [hx]) y (by simp [hy]) hk)
      rw [this]

/-- C8 (amended): the emitted relation list is the set-deduplicated tuples
sorted by `(relationName, entity1Id-as-string, entity2Id-as-string)`, and it
is identical across runs on the same unordered input *provided* distinct
collected tuples always differ on that sort key; tuples equal on the key but
differing in the type components may be emitted in either order, because
Python's set iteration order varies between runs and the sort is stable. -/
theorem C8_deterministic_relation_ordering_amended (l1 l2 : List RelTuple)
    (hperm : l1.Perm l2)
    (hinj : ∀ a ∈ l1, ∀ b ∈ l1, sortKey a = sortKey b → a = b) :
    unique_relations l1 = unique_relations l2
    ∧ (unique_relations l1).Perm l1
    ∧ (unique_relations l1).Pairwise (fun a b => relLe a b = true) := by
  haveI htot : IsTotal RelTuple (fun a b => relLe a b = true) := ⟨relLe_total⟩
  haveI htrans : IsTrans RelTuple (fun a b => relLe a b = true) := ⟨relLe_trans⟩
  have hp1 : (unique_relations l1).Perm l1 := List.perm_insertionSort _ l1
  have hp2 : (unique_relations l2).Perm l2 := List.perm_insertionSort _ l2
  have hs1 : (unique_relations l1).Pairwise (fun a b => relLe a b = true) :=
    List.sorted_insertionSort _ l1
  have hs2 : (unique_relations l2).Pairwise (fun a b => relLe a b = true) :=
    List.sorted_insertionSort _ l2
  refine ⟨?_, hp1, hs1⟩
  exact sorted_key_inj_eq _ _ (hp1.trans (hperm.trans hp2.symm)) hs1 hs2
    (fun x hx y hy hk => hinj x (hp1.mem_iff.mp hx) y (hp1.mem_iff.mp hy) hk)

/-- C8 counterexample: two distinct tuples sharing the sort key (same name
and entity ids, different src/dst type components) come out in input order —
two set iteration orders of the same unordered input give two different
emitted lists, refuting run-to-run determinism as claimed. -/
theorem C8_deterministic_relation_ordering_counterexample :
    (([⟨"r".toList, "A".toList, "B".toList, "1".toList, "2".toList⟩,
       ⟨"r".toList, "C".toList, "D".toList, "1".toList, "2".toList⟩] : List RelTuple).Perm
      [⟨"r".toList, "C".toList, "D".toList, "1".toList, "2".toList⟩,
       ⟨"r".toList, "A".toList, "B".toList, "1".toList, "2".toList⟩])
    ∧ unique_relations
        [⟨"r".toList, "A".toList, "B".toList, "1".toList, "2".toList⟩,
         ⟨"r".toList, "C".toList, "D".toList, "1".toList, "2".toList⟩] ≠
      unique_relations
        [⟨"r".toList, "C".toList, "D".toList, "1".toList, "2".toList⟩,
         ⟨"r".toList, "A".toList, "B".toList, "1".toList, "2".toList⟩] := by
  constructor
  · decide
  · decide

/-- C8 witness: the amended determinism theorem applied to a concrete pair of
key-distinct tuple lists in two different orders. -/
theorem C8_deterministic_relation_ordering_witness :
    unique_relations
        [⟨"s".toList, "A".toList, "B".toList, "2".toList, "2".toList⟩,
         ⟨"r".toList, "A".toList, "B".toList, "1".toList, "2".toList⟩] =
      unique_relations
        [⟨"r".toList, "A".toList, "B".toList, "1".toList, "2".toList⟩,
         ⟨"s".toList, "A".toList, "B".toList, "2".toList, "2".toList⟩] :=
  (C8_deterministic_relation_ordering_amended _ _ (by decide) (by decide)).1

-- ## C4: entity dedup machinery

theorem foldl_preserve {α β : Type} (step : β → α → β) (Inv : β → Prop)
    (h : ∀ b a, Inv b → Inv (step b a)) :
    ∀ (l : List α) (b : β), Inv b → Inv (l.foldl step b) := by
  intro l
  induction l with
  | nil => intro b hb; exact hb
  | cons a t ih => intro b hb; exact ih (step b a) (h b a hb)

theorem foldl_hit {α β : Type} (step : β → α → β) (P : β → Prop) (x0 : α)
    (hpres : ∀ b a, P b → P (step b a)) (hhit : ∀ b, P (step b x0)) :
    ∀ (l : List α) (b : β), x0 ∈ l → P (l.foldl step b) := by
  intro l
  induction l with
  | nil => intro b hm; exact absurd hm (by simp)
  | cons a t ih =>
    intro b hm
    rcases List.mem_cons.mp hm with h | h
    · subst h
      exact foldl_preserve step P hpres t (step b x0) (hhit b)
    · exact ih (step b a) h

theorem dedupKeepFirst_mem {α : Type} [DecidableEq α] {x : α} (l : List α) :
    x ∈ dedupKeepFirst l ↔ x ∈ l := by
  have key : ∀ (l : List α) (acc : List α),
      x ∈ l.foldl (fun acc a => if a ∈ acc then acc else acc ++ [a]) acc ↔
        x ∈ acc ∨ x ∈ l := by
    intro l
    induction l with
    | nil => intro acc; simp
    | cons a t ih =>
      intro acc
      rw [List.foldl_cons, ih]
      by_cases ha : a ∈ acc
      · simp only [if_pos ha]
        constructor
        · rintro (h | h)
          · exact Or.inl h
          · exact Or.inr (List.mem_cons_of_mem a h)
        · rintro (h | h)
          · exact Or.inl h
          · rcases List.mem_cons.mp h with h | h
            · exact Or.inl (h ▸ ha)
            · exact Or.inr h
      · simp only [if_neg ha, List.mem_append, List.mem_singleton]
        constructor
        · rintro ((h | h) | h)
          · exact Or.inl h
          · exact Or.inr (List.mem_cons.mpr (Or.inl h))
          · exact Or.inr (List.mem_cons_of_mem a h)
        · rintro (h | h)
          · exact Or.inl (Or.inl h)
          · rcases List.mem_cons.mp h with h | h
            · exact Or.inl (Or.inr h)
            · exact Or.inr h
  rw [dedupKeepFirst, key l []]
  simp

theorem keys_any_iff (m : List ((Str × Str) × EntityRecord)) (k : Str × Str) :
    m.any (fun e => e.1 = k) = true ↔ k ∈ m.map (fun e => e.1) := by
  induction m with
  | nil => simp
  | cons e t ih =>
    simp only [List.any_cons, List.map_cons, List.mem_cons, Bool.or_eq_true,
      decide_eq_true_eq, ih]
    constructor
    · rintro (h | h)
      · exact Or.inl h.symm
      · exact Or.inr h
    · rintro (h | h)
      · exact Or.inl h.symm
      · exact Or.inr h

theorem addEntity_keys_mono {m : List ((Str × Str) × EntityRecord)} {k key : Str × Str}
    {rec : EntityRecord} (h : k ∈ m.map (fun e => e.1)) :
    k ∈ (addEntity m key rec).map (fun e => e.1) := by
  by_cases hc : m.any (fun e => e.1 = key) = true
  · rw [addEntity, if_pos hc]
    exact h
  · rw [addEntity, if_neg hc, List.map_append]
    exact List.mem_append_left _ h

theorem addEntity_mem_self (m : List ((Str × Str) × EntityRecord)) (key : Str × Str)
    (rec : EntityRecord) : key ∈ (addEntity m key rec).map (fun e => e.1) := by
  by_cases hc : m.any (fun e => e.1 = key) = true
  · rw [addEntity, if_pos hc]
    exact (keys_any_iff m key).mp hc
  · rw [addEntity, if_neg hc, List.map_append]
    exact List.mem_append_right _ (by simp)

theorem addEntity_nodup {m : List ((Str × Str) × EntityRecord)} {key : Str × Str}
    {rec : EntityRecord} (h : (m.map (fun e => e.1)).Nodup) :
    ((addEntity m key rec).map (fun e => e.1)).Nodup := by
  by_cases hc : m.any (fun e => e.1 = key) = true
  · rw [addEntity, if_pos hc]
    exact h
  · rw [addEntity, if_neg hc, List.map_append]
    refine List.Nodup.append h (by simp) ?_
    intro x hx hx2
    simp only [List.map_cons, List.map_nil, List.mem_singleton] at hx2
    have hk : key ∈ m.map (fun e => e.1) := by rw [← hx2]; exact hx
    exact hc ((keys_any_iff m key).mpr hk)

theorem collect_mapped_nodup (nfc : Str → Str) (column2type : List (Str × Str))
    (properties : List (Str × List (Str × Str))) (delimited_fields : List (Str × Str))
    (columns : List Str) (data : List Row) :
    ((collect_mapped_entities nfc column2type properties delimited_fields columns
      data).map (fun e => e.1)).Nodup := by
  unfold collect_mapped_entities
  refine foldl_preserve _ (fun (m : List ((Str × Str) × EntityRecord)) =>
    (m.map (fun e => e.1)).Nodup) ?_ _ _ ?_
  · intro ents ce hN
    dsimp only
    split
    · refine foldl_preserve _ (fun (m : List ((Str × Str) × EntityRecord)) =>
        (m.map (fun e => e.1)).Nodup) ?_ _ _ hN
      intro es rec hN2
      dsimp only
      split
      · exact hN2
      · refine foldl_preserve _ (fun (m : List ((Str × Str) × EntityRecord)) =>
          (m.map (fun e => e.1)).Nodup) ?_ _ _ hN2
        intro es2 item hN3
        dsimp only
        split
        · split
          · exact hN3
          · exact addEntity_nodup hN3
        · exact hN3
    · exact hN
  · simp

theorem collect_dynamic_nodup (nfc : Str → Str) (relations : List RelDef)
    (column2type : List (Str × Str)) (delimited_fields : List (Str × Str))
    (columns : List Str) (data : List Row) :
    ((collect_dynamic_relation_entities nfc relations column2type delimited_fields
      columns data).map (fun e => e.1)).Nodup := by
  unfold collect_dynamic_relation_entities
  refine foldl_preserve _ (fun (m : List ((Str × Str) × EntityRecord)) =>
    (m.map (fun e => e.1)).Nodup) ?_ _ _ ?_
  · intro ents row hN
    dsimp only
    refine foldl_preserve _ (fun (m : List ((Str × Str) × EntityRecord)) =>
      (m.map (fun e => e.1)).Nodup) ?_ _ _ hN
    intro es col hN2
    dsimp only
    split
    · exact hN2
    · refine foldl_preserve _ (fun (m : List ((Str × Str) × EntityRecord)) =>
        (m.map (fun e => e.1)).Nodup) ?_ _ _ hN2
      intro es2 item hN3
      dsimp only
      split
      · split
        · exact hN3
        · split
          · exact addEntity_nodup hN3
          · exact hN3
      · exact hN3
  · simp

theorem collect_mapped_mem (nfc : Str → Str) (column2type : List (Str × Str))
    (properties : List (Str × List (Str × Str))) (delimited_fields : List (Str × Str))
    (columns : List Str) (data : List Row) (c T : Str) (r1 : Row) (v1 : RawScalar)
    (s : Str)
    (hc : (c, T) ∈ column2type) (hcol : c ∈ columns)
    (hdelim : lookupStr delimited_fields c = none)
    (hr1 : r1 ∈ data) (hv1 : rowGet r1 c = v1) (hn1 : v1 ≠ .null)
    (hnv1 : normalize_value nfc (.strV (pyStr v1)) = some s) (hs : s ≠ []) :
    (T, s) ∈ ((collect_mapped_entities nfc column2type properties delimited_fields
      columns data).map (fun e => e.1)) := by
  unfold collect_mapped_entities
  refine foldl_hit _ (fun (m : List ((Str × Str) × EntityRecord)) =>
    (T, s) ∈ m.map (fun e => e.1)) (c, T) ?_ ?_ _ _ hc
  · -- every column step preserves key membership
    intro ents ce hP
    dsimp only
    split
    · refine foldl_preserve _ (fun (m : List ((Str × Str) × EntityRecord)) =>
        (T, s) ∈ m.map (fun e => e.1)) ?_ _ _ hP
      intro es rec hP2
      dsimp only
      split
      · exact hP2
      · refine foldl_preserve _ (fun (m : List ((Str × Str) × EntityRecord)) =>
          (T, s) ∈ m.map (fun e => e.1)) ?_ _ _ hP2
        intro es2 item hP3
        dsimp only
        split
        · split
          · exact hP3
          · exact addEntity_keys_mono hP3
        · exact hP3
    · exact hP
  · -- processing the (c, T) column entry inserts the key
    intro ents
    dsimp only
    rw [if_pos hcol]
    refine foldl_hit _ (fun (m : List ((Str × Str) × EntityRecord)) =>
      (T, s) ∈ m.map (fun e => e.1))
      (v1, (propsFor properties c).map (fun pe => rowGet r1 pe.1)) ?_ ?_ _ _ ?_
    · -- record steps preserve membership
      intro es rec hP2
      dsimp only
      split
      · exact hP2
      · refine foldl_preserve _ (fun (m : List ((Str × Str) × EntityRecord)) =>
          (T, s) ∈ m.map (fun e => e.1)) ?_ _ _ hP2
        intro es2 item hP3
        dsimp only
        split
        · split
          · exact hP3
          · exact addEntity_keys_mono hP3
        · exact hP3
    · -- the record coming from row r1 inserts the key
      intro es
      dsimp only
      rw [if_neg hn1]
      rw [hdelim]
      have hitems : process_field (.scalar v1) none false = [pyStr v1] := rfl
      rw [hitems]
      rw [List.foldl_cons, List.foldl_nil]
      rw [hnv1]
      dsimp only
      rw [if_neg hs]
      exact addEntity_mem_self _ _ _
    · -- the projected record of r1 is among the deduplicated records
      rw [dedupKeepFirst_mem]
      refine List.mem_map.mpr ⟨r1, hr1, ?_⟩
      rw [hv1]

theorem countP_eq_one_of_nodup_mem {α : Type} [DecidableEq α] {l : List α} {a : α}
    (hn : l.Nodup) (ha : a ∈ l) : l.countP (fun x => x = a) = 1 := by
  induction l with
  | nil => simp at ha
  | cons b t ih =>
    rw [List.countP_cons]
    rcases List.mem_cons.mp ha with heq | hat
    · have hnb : a ∉ t := heq ▸ (List.nodup_cons.mp hn).1
      rw [List.countP_eq_zero.mpr (fun x hx => by
        simp only [decide_eq_true_eq]
        intro hxa
        exact hnb (hxa ▸ hx))]
      simp [heq.symm]
    · have hba : b ≠ a := fun h => (List.nodup_cons.mp hn).1 (h ▸ hat)
      rw [ih (List.nodup_cons.mp hn).2 hat]
      simp [hba]

theorem mergeDicts_keys (d m : List ((Str × Str) × EntityRecord)) :
    (mergeDicts d m).map (fun e => e.1) =
      d.map (fun e => e.1) ++
        (m.filter (fun e => ¬ d.any (fun x => x.1 = e.1))).map (fun e => e.1) := by
  unfold mergeDicts
  rw [List.map_append]
  congr 1
  rw [List.map_map]
  apply List.map_congr_left
  intro e _
  simp only [Function.comp]
  cases hf : m.find? (fun x => x.1 = e.1) with
  | none => simp [hf]
  | some mm => simp [hf]

theorem mergeDicts_nodup (d m : List ((Str × Str) × EntityRecord))
    (hd : (d.map (fun e => e.1)).Nodup) (hm : (m.map (fun e => e.1)).Nodup) :
    ((mergeDicts d m).map (fun e => e.1)).Nodup := by
  rw [mergeDicts_keys]
  refine List.Nodup.append hd ?_ ?_
  · exact List.Nodup.sublist
      (List.Sublist.map _ (List.filter_sublist m)) hm
  · intro x hxd hxf
    obtain ⟨e, he, hek⟩ := List.mem_map.mp hxf
    have hpred := (List.mem_filter.mp he).2
    simp only [decide_eq_true_eq] at hpred
    apply hpred
    rw [keys_any_iff, hek]
    exact hxd

theorem mergeDicts_mem_right {k : Str × Str} (d m : List ((Str × Str) × EntityRecord))
    (hk : k ∈ m.map (fun e => e.1)) : k ∈ (mergeDicts d m).map (fun e => e.1) := by
  rw [mergeDicts_keys]
  by_cases hd : d.any (fun e => e.1 = k) = true
  · exact List.mem_append_left _ ((keys_any_iff d k).mp hd)
  · refine List.mem_append_right _ ?_
    obtain ⟨e, he, hek⟩ := List.mem_map.mp hk
    refine List.mem_map.mpr ⟨e, List.mem_filter.mpr ⟨he, ?_⟩, hek⟩
    simp only [decide_eq_true_eq]
    intro hany
    apply hd
    rw [keys_any_iff] at hany ⊢
    rw [hek] at hany
    exact hany

/-- C4 (amended): if two rows reference the same entity by spellings whose
normalizations agree on a non-empty string `s` — in particular precomposed
vs combining-mark accent spellings, which NFC identifies — then the entity
deduplication phase (`{**dynamic, **mapped}`) produces exactly one
EntityRecord keyed `(T, s)`.  Differently-*cased* spellings are not
identified: `normalize_value` never case-folds (see the counterexample), so
the claim holds for accent variants but not case variants. -/
theorem C4_dedup_exactly_one_amended (nfc : Str → Str) (column2type : List (Str × Str))
    (properties : List (Str × List (Str × Str))) (delimited_fields : List (Str × Str))
    (relations : List RelDef) (columns : List Str) (data : List Row)
    (c T : Str) (r1 r2 : Row) (v1 v2 : RawScalar) (s : Str)
    (hc : (c, T) ∈ column2type) (hcol : c ∈ columns)
    (hdelim : lookupStr delimited_fields c = none)
    (hr1 : r1 ∈ data) (hr2 : r2 ∈ data)
    (hv1 : rowGet r1 c = v1) (hv2 : rowGet r2 c = v2)
    (hn1 : v1 ≠ .null) (hn2 : v2 ≠ .null)
    (hnv1 : normalize_value nfc (.strV (pyStr v1)) = some s)
    (hnv2 : normalize_value nfc (.strV (pyStr v2)) = some s)
    (hs : s ≠ []) :
    ((entity_dedup_phase nfc column2type properties delimited_fields relations columns
      data).map (fun e => e.1)).countP (fun k => k = (T, s)) = 1 := by
  apply countP_eq_one_of_nodup_mem
  · exact mergeDicts_nodup _ _
      (collect_dynamic_nodup nfc relations column2type delimited_fields columns data)
      (collect_mapped_nodup nfc column2type properties delimited_fields columns data)
  · exact mergeDicts_mem_right _ _
      (collect_mapped_mem nfc column2type properties delimited_fields columns data
        c T r1 v1 s hc hcol hdelim hr1 hv1 hn1 hnv1 hs)

/-- C4 counterexample: two rows referencing the same entity by
differently-cased spellings (`Milk` vs `milk`) produce TWO EntityRecords,
not one — dedup keys are case-sensitive. -/
theorem C4_dedup_counterexample :
    (entity_dedup_phase nfcId [("NAME".toList, "person".toList)] [] [] []
      ["NAME".toList]
      [[("NAME".toList, .strV ("Milk".toList))],
       [("NAME".toList, .strV ("milk".toList))]]).map (fun e => e.1)
      = [("person".toList, "Milk".toList), ("person".toList, "milk".toList)] := by
  decide

/-- C4 witness: the amended theorem applied to a concrete workbook whose two
rows spell the same name with a precomposed `é` and with `e` + combining
acute; exactly one record results. -/
theorem C4_dedup_exactly_one_witness :
    ((entity_dedup_phase nfcToy [("NAME".toList, "person".toList)] [] [] []
      ["NAME".toList]
      [[("NAME".toList, .strV ['c', 'a', 'f', 'é'])],
       [("NAME".toList, .strV ['c', 'a', 'f', 'e', '́'])]]).map (fun e => e.1)).countP
      (fun k => k = ("person".toList, ['c', 'a', 'f', 'é'])) = 1 :=
  C4_dedup_exactly_one_amended nfcToy [("NAME".toList, "person".toList)] [] [] []
    ["NAME".toList]
    [[("NAME".toList, .strV ['c', 'a', 'f', 'é'])],
     [("NAME".toList, .strV ['c', 'a', 'f', 'e', '́'])]]
    "NAME".toList ("person".toList)
    [("NAME".toList, .strV ['c', 'a', 'f', 'é'])]
    [("NAME".toList, .strV ['c', 'a', 'f', 'e', '́'])]
    (.strV ['c', 'a', 'f', 'é']) (.strV ['c', 'a', 'f', 'e', '́'])
    ['c', 'a', 'f', 'é']
    (by decide) (by decide) (by decide) (by decide) (by decide) (by decide) (by decide)
    (by decide) (by decide) (by decide) (by decide) (by decide)

-- ## C1: merge_entity find-before-create

theorem getField_mapset_other (m : List (Str × BVal)) (k : Str) (v : BVal) (q : Str)
    (h : q ≠ k) :
    getField (m.map (fun e => if e.1 = k then (k, v) else e)) q = getField m q := by
  induction m with
  | nil => rfl
  | cons e t ih =>
    by_cases he : e.1 = k
    · simp only [List.map_cons, if_pos he]
      rw [getField, getField, List.find?_cons, List.find?_cons]
      have h1 : (decide ((k, v).1 = q)) = false := by
        simp only [decide_eq_false_iff_not]
        exact fun hh => h hh.symm
      have h2 : (decide (e.1 = q)) = false := by
        simp only [decide_eq_false_iff_not]
        rw [he]
        exact fun hh => h hh.symm
      rw [h1, h2]
      exact ih
    · simp only [List.map_cons, if_neg he]
      rw [getField, getField, List.find?_cons, List.find?_cons]
      cases hq : (decide (e.1 = q))
      · exact ih
      · rfl

theorem getField_mapset_self (m : List (Str × BVal)) (k : Str) (v : BVal)
    (h : m.any (fun e => e.1 = k) = true) :
    getField (m.map (fun e => if e.1 = k then (k, v) else e)) k = some v := by
  induction m with
  | nil => simp at h
  | cons e t ih =>
    by_cases he : e.1 = k
    · simp only [List.map_cons, if_pos he]
      rw [getField, List.find?_cons]
      simp
    · simp only [List.any_cons, Bool.or_eq_true, decide_eq_true_eq] at h
      rcases h with h | h
      · exact absurd h he
      · simp only [List.map_cons, if_neg he]
        rw [getField, List.find?_cons]
        have h2 : (decide (e.1 = k)) = false := by simp [he]
        rw [h2]
        exact ih h

theorem find?_key_append_single_ne (m : List (Str × BVal)) (k : Str) (v : BVal)
    (q : Str) (h : q ≠ k) :
    (m ++ [(k, v)]).find? (fun e => e.1 = q) = m.find? (fun e => e.1 = q) := by
  rw [List.find?_append]
  have h0 : ([(k, v)].find? (fun e => e.1 = q)) = none := by
    simp only [List.find?_cons, List.find?_nil]
    have h1 : (decide ((k, v).1 = q)) = false := by
      simp only [decide_eq_false_iff_not]
      exact fun hh => h hh.symm
    rw [h1]
  rw [h0]
  cases m.find? (fun e => e.1 = q) <;> rfl

theorem getField_setAssoc_self (m : List (Str × BVal)) (k : Str) (v : BVal) :
    getField (setAssoc m k v) k = some v := by
  by_cases hany : m.any (fun e => e.1 = k) = true
  · rw [setAssoc, if_pos hany]
    exact getField_mapset_self m k v hany
  · rw [setAssoc, if_neg hany, getField, List.find?_append,
      List.find?_eq_none.mpr (fun x hx hp => hany (List.any_eq_true.mpr ⟨x, hx, hp⟩))]
    simp only [List.find?_cons, List.find?_nil]
    rfl

theorem getField_setAssoc_other (m : List (Str × BVal)) (k : Str) (v : BVal) (q : Str)
    (h : q ≠ k) : getField (setAssoc m k v) q = getField m q := by
  by_cases hany : m.any (fun e => e.1 = k) = true
  · rw [setAssoc, if_pos hany]
    exact getField_mapset_other m k v q h
  · rw [setAssoc, if_neg hany, getField, find?_key_append_single_ne m k v q h]
    rfl

theorem getField_foldl_setAssoc_notin (qp : List (Str × BVal)) (base : List (Str × BVal))
    (k : Str) (h : k ∉ qp.map (fun e => e.1)) :
    getField (qp.foldl (fun f kv => setAssoc f kv.1 kv.2) base) k = getField base k := by
  induction qp generalizing base with
  | nil => rfl
  | cons kv t ih =>
    simp only [List.map_cons, List.mem_cons] at h
    push_neg at h
    rw [List.foldl_cons, ih _ h.2, getField_setAssoc_other _ _ _ _ h.1]

theorem getField_foldl_setAssoc_mem (qp : List (Str × BVal)) (base : List (Str × BVal))
    (kv : Str × BVal) (hmem : kv ∈ qp) (hnd : (qp.map (fun e => e.1)).Nodup) :
    getField (qp.foldl (fun f kv => setAssoc f kv.1 kv.2) base) kv.1 = some kv.2 := by
  induction qp generalizing base with
  | nil => simp at hmem
  | cons kv0 t ih =>
    simp only [List.map_cons, List.nodup_cons] at hnd
    rcases List.mem_cons.mp hmem with heq | hmemt
    · subst heq
      rw [List.foldl_cons,
        getField_foldl_setAssoc_notin t _ kv.1 hnd.1, getField_setAssoc_self]
    · exact List.foldl_cons _ _ ▸ ih _ hmemt hnd.2

theorem setAssoc_keys {β : Type} (m : List (Str × β)) (k : Str) (v : β) :
    (setAssoc m k v).map (fun e => e.1) =
      if m.any (fun e => e.1 = k) then m.map (fun e => e.1)
      else m.map (fun e => e.1) ++ [k] := by
  by_cases hany : m.any (fun e => e.1 = k) = true
  · rw [setAssoc, if_pos hany, if_pos hany, List.map_map]
    apply List.map_congr_left
    intro e _
    by_cases he : e.1 = k
    · simp [he]
    · simp [he]
  · rw [setAssoc, if_neg hany, if_neg hany, List.map_append]
    rfl

theorem setAssoc_keys_nodup {β : Type} (m : List (Str × β)) (k : Str) (v : β)
    (h : (m.map (fun e => e.1)).Nodup) : ((setAssoc m k v).map (fun e => e.1)).Nodup := by
  rw [setAssoc_keys]
  split
  · exact h
  · rename_i hany
    refine List.Nodup.append h (by simp) ?_
    intro x hx hx2
    simp only [List.mem_singleton] at hx2
    subst hx2
    apply hany
    simp only [List.any_eq_true, decide_eq_true_eq]
    obtain ⟨e, he, hek⟩ := List.mem_map.mp hx
    exact ⟨e, he, hek⟩

theorem setAssoc_keys_mem {β : Type} (m : List (Str × β)) (k : Str) (v : β) (q : Str) :
    q ∈ (setAssoc m k v).map (fun e => e.1) ↔ q = k ∨ q ∈ m.map (fun e => e.1) := by
  rw [setAssoc_keys]
  split
  · rename_i hany
    constructor
    · exact fun h => Or.inr h
    · rintro (rfl | h)
      · simp only [List.any_eq_true, decide_eq_true_eq] at hany
        obtain ⟨e, he, hek⟩ := hany
        exact List.mem_map.mpr ⟨e, he, hek⟩
      · exact h
  · simp only [List.mem_append, List.mem_singleton]
    tauto

theorem find?_map_pres {α : Type} (p : α → Bool) (f : α → α) (l : List α)
    (h : ∀ d ∈ l, p (f d) = p d) : (l.map f).find? p = (l.find? p).map f := by
  induction l with
  | nil => rfl
  | cons a t ih =>
    rw [List.map_cons, List.find?_cons, List.find?_cons, h a (List.mem_cons_self a t)]
    cases hp : p a
    · exact ih (fun d hd => h d (List.mem_cons_of_mem a hd))
    · rfl

theorem find?_mapset_self {β : Type} (m : List (Str × β)) (k : Str) (v : β)
    (h : m.any (fun e => e.1 = k) = true) :
    (m.map (fun e => if e.1 = k then (k, v) else e)).find? (fun e => e.1 = k) =
      some (k, v) := by
  induction m with
  | nil => simp at h
  | cons e t ih =>
    by_cases he : e.1 = k
    · rw [List.map_cons, if_pos he, List.find?_cons]
      simp
    · simp only [List.any_cons, Bool.or_eq_true, decide_eq_true_eq] at h
      rcases h with h | h
      · exact absurd h he
      · rw [List.map_cons, if_neg he, List.find?_cons]
        have h2 : (decide (e.1 = k)) = false := by simp [he]
        rw [h2]
        exact ih h

theorem find?_setAssoc_self {β : Type} (m : List (Str × β)) (k : Str) (v : β) :
    (setAssoc m k v).find? (fun e => e.1 = k) = some (k, v) := by
  by_cases hany : m.any (fun e => e.1 = k) = true
  · rw [setAssoc, if_pos hany]
    exact find?_mapset_self m k v hany
  · rw [setAssoc, if_neg hany, List.find?_append,
      List.find?_eq_none.mpr (fun x hx hp => hany (List.any_eq_true.mpr ⟨x, hx, hp⟩))]
    simp only [List.find?_cons, List.find?_nil]
    rfl

theorem setAssoc_cons_ne {β : Type} (e : Str × β) (t : List (Str × β)) (k : Str) (v : β)
    (he : ¬ e.1 = k) : setAssoc (e :: t) k v = e :: setAssoc t k v := by
  rw [setAssoc, setAssoc]
  have h1 : ((e :: t).any fun x => x.1 = k) = (t.any fun x => x.1 = k) := by
    simp [List.any_cons, he]
  rw [h1]
  by_cases hany : (t.any fun x => x.1 = k) = true
  · rw [if_pos hany, if_pos hany, List.map_cons, if_neg he]
  · rw [if_neg hany, if_neg hany, List.cons_append]

theorem map_if_eq_self {β : Type} (t : List (Str × β)) (n : Str) (w : Str × β)
    (h : ∀ x ∈ t, ¬ x.1 = n) : t.map (fun x => if x.1 = n then w else x) = t := by
  induction t with
  | nil => rfl
  | cons a s ih =>
    rw [List.map_cons, if_neg (h a (List.mem_cons_self a s)),
      ih (fun x hx => h x (List.mem_cons_of_mem a hx))]

theorem sum_len_setAssoc (c : List (Str × List MDoc)) (n : Str) (L : List MDoc)
    (hnd : (c.map (fun e => e.1)).Nodup) :
    ((setAssoc c n L).map (fun e => e.2.length)).sum +
      (match c.find? (fun e => e.1 = n) with | some e => e.2.length | none => 0) =
      (c.map (fun e => e.2.length)).sum + L.length := by
  induction c with
  | nil => simp [setAssoc]
  | cons e t ih =>
    simp only [List.map_cons, List.nodup_cons] at hnd
    by_cases he : e.1 = n
    · have hany : ((e :: t).any fun x => x.1 = n) = true := by simp [List.any_cons, he]
      rw [setAssoc, if_pos hany, List.map_cons, if_pos he, List.find?_cons]
      have hdec : (decide (e.1 = n)) = true := by simp [he]
      rw [hdec]
      have hnot : ∀ x ∈ t, ¬ x.1 = n := by
        intro x hx hxn
        exact hnd.1 (he ▸ hxn ▸ List.mem_map.mpr ⟨x, hx, rfl⟩)
      rw [map_if_eq_self t n (n, L) hnot]
      simp only [List.map_cons, List.sum_cons]
      omega
    · rw [setAssoc_cons_ne e t n L he, List.find?_cons]
      have hdec : (decide (e.1 = n)) = false := by simp [he]
      rw [hdec]
      have ih2 := ih hnd.2
      rw [setAssoc] at ih2
      rw [setAssoc]
      simp only [List.map_cons, List.sum_cons]
      omega

theorem lookupStr_mem_values (m : List (Str × Str)) (k v : Str)
    (h : lookupStr m k = some v) : v ∈ m.map (fun e => e.2) := by
  rw [lookupStr] at h
  cases hf : m.find? (fun e => e.1 = k) with
  | none => rw [hf] at h; exact absurd h (by simp)
  | some e =>
    rw [hf] at h
    have he : e.2 = v := by injection h
    exact he ▸ List.mem_map.mpr ⟨e, List.mem_of_find?_eq_some hf, rfl⟩

theorem field_name_not_reserved (dl : Str) :
    ((lookupStr predefined dl).getD ("description".toList)) ∉ reservedParamKeys ∧
    ((lookupStr predefined dl).getD ("description".toList)) ≠ ("associatedUsers".toList) := by
  cases hf : lookupStr predefined dl with
  | none => exact ⟨by decide, by decide⟩
  | some v =>
    have hv := lookupStr_mem_values predefined dl v hf
    simp only [Option.getD_some]
    have hv2 : v ∈ [("name".toList), ("name".toList), ("title".toList), ("label".toList),
        ("title".toList)] := hv
    fin_cases hv2 <;> exact ⟨by decide, by decide⟩

theorem merge_entity_unknown_type (st : MongoState) (ae : List (Str × Str))
    (dn en : Str) (params : List (Str × BVal)) (hae : st.activeEntities = some ae)
    (hlook : lookupStr ae (pyLower dn) = none) :
    merge_entity st dn en params = (none, st) := by
  simp only [merge_entity, hae, Option.getD_some, hlook]

theorem merge_entity_empty_type (st : MongoState) (ae : List (Str × Str))
    (dn en : Str) (params : List (Str × BVal)) (hae : st.activeEntities = some ae)
    (hlook : lookupStr ae (pyLower dn) = some []) :
    merge_entity st dn en params = (none, st) := by
  simp only [merge_entity, hae, Option.getD_some, hlook, if_pos]

theorem merge_entity_user_hit (st : MongoState) (ae : List (Str × Str))
    (dn en : Str) (params : List (Str × BVal)) (et : Str) (uid : Nat)
    (hae : st.activeEntities = some ae)
    (hlook : lookupStr ae (pyLower dn) = some et) (hne : ¬ et = [])
    (huser : (if et = "persons".toList then
        match findOneDoc st.usersDb [("username".toList, .vStr en)] with
        | some u => some u.id
        | none => none
      else none) = some uid) :
    merge_entity st dn en params = (some uid, st) := by
  simp only [merge_entity, hae, Option.getD_some, hlook]
  rw [if_neg hne, huser]

theorem merge_entity_found_member (st : MongoState) (ae : List (Str × Str))
    (dn en : Str) (params : List (Str × BVal)) (et : Str) (d : MDoc)
    (hae : st.activeEntities = some ae)
    (hlook : lookupStr ae (pyLower dn) = some et) (hne : ¬ et = [])
    (huser : (if et = "persons".toList then
        match findOneDoc st.usersDb [("username".toList, .vStr en)] with
        | some u => some u.id
        | none => none
      else none) = none)
    (hfind : findOneDoc
        (getColl st ((lookupStr collection_map et).getD ("entities".toList)))
        (setAssoc params ((lookupStr predefined (pyLower dn)).getD ("description".toList))
          (.vStr en)) = some d)
    (hmem : st.userId ∈ assocUsersOf d) :
    merge_entity st dn en params = (some d.id, st) := by
  simp only [merge_entity, hae, Option.getD_some, hlook]
  rw [if_neg hne, huser, hfind]
  simp only [hmem, if_true]

theorem merge_entity_found_update (st : MongoState) (ae : List (Str × Str))
    (dn en : Str) (params : List (Str × BVal)) (et : Str) (d : MDoc)
    (hae : st.activeEntities = some ae)
    (hlook : lookupStr ae (pyLower dn) = some et) (hne : ¬ et = [])
    (huser : (if et = "persons".toList then
        match findOneDoc st.usersDb [("username".toList, .vStr en)] with
        | some u => some u.id
        | none => none
      else none) = none)
    (hfind : findOneDoc
        (getColl st ((lookupStr collection_map et).getD ("entities".toList)))
        (setAssoc params ((lookupStr predefined (pyLower dn)).getD ("description".toList))
          (.vStr en)) = some d)
    (hmem : st.userId ∉ assocUsersOf d) :
    merge_entity st dn en params =
      (some d.id,
       { st with
          colls := setAssoc st.colls ((lookupStr collection_map et).getD ("entities".toList))
            (updateDocIn (getColl st ((lookupStr collection_map et).getD ("entities".toList)))
              d.id (updateFoundDoc st.userId st.clock)),
          audits := st.audits + 1,
          clock := st.clock + 1 }) := by
  simp only [merge_entity, hae, Option.getD_some, hlook]
  rw [if_neg hne, huser, hfind]
  simp only [hmem, if_false]

theorem merge_entity_insert (st : MongoState) (ae : List (Str × Str))
    (dn en : Str) (params : List (Str × BVal)) (et : Str)
    (doc1 doc2 doc3 : List (Str × BVal))
    (hae : st.activeEntities = some ae)
    (hlook : lookupStr ae (pyLower dn) = some et) (hne : ¬ et = [])
    (huser : (if et = "persons".toList then
        match findOneDoc st.usersDb [("username".toList, .vStr en)] with
        | some u => some u.id
        | none => none
      else none) = none)
    (hfind : findOneDoc
        (getColl st ((lookupStr collection_map et).getD ("entities".toList)))
        (setAssoc params ((lookupStr predefined (pyLower dn)).getD ("description".toList))
          (.vStr en)) = none)
    (hd1 : doc1 = (setAssoc params
        ((lookupStr predefined (pyLower dn)).getD ("description".toList))
        (.vStr en)).foldl (fun f kv => setAssoc f kv.1 kv.2)
      [("active".toList, .vBool true), ("creationUser".toList, .vId st.userId),
       ("updateUser".toList, .vId st.userId),
       ("creationTimestamp".toList, .vTime st.clock),
       ("latestUpdateTimestamp".toList, .vTime st.clock),
       ("namespace".toList, .vStr ("interfolia".toList)), ("__v".toList, .vNat 0),
       ("associatedUsers".toList, .vIdList [st.userId])])
    (hd2 : doc2 =
      if et = "persons".toList then setAssoc doc1 ("measures".toList) (.vIdList [])
      else if et = "institutions".toList ∨ et = "events".toList
          ∨ (lookupStr collection_map et).isNone then
        setAssoc doc1 ("relations".toList) (.vIdList [])
      else doc1)
    (hd3 : doc3 = match findOneDoc st.typesDb [("name".toList, .vStr et)] with
      | some tdoc => setAssoc doc2 ("type".toList) (.vId tdoc.id)
      | none => doc2) :
    merge_entity st dn en params =
      (some st.nextId,
       { st with
          colls := setAssoc st.colls ((lookupStr collection_map et).getD ("entities".toList))
            (getColl st ((lookupStr collection_map et).getD ("entities".toList)) ++
              [⟨st.nextId, doc3⟩]),
          nextId := st.nextId + 1,
          audits := st.audits + 1,
          clock := st.clock + 1 }) := by
  subst hd3
  subst hd2
  subst hd1
  simp only [merge_entity, hae, Option.getD_some, hlook]
  rw [if_neg hne, huser, hfind]

theorem all_congr_bool {α : Type} (p q : α → Bool) (l : List α)
    (h : ∀ x ∈ l, p x = q x) : l.all p = l.all q := by
  induction l with
  | nil => rfl
  | cons y ys ih =>
    rw [List.all_cons, List.all_cons, h y (List.mem_cons_self y ys)]
    rw [ih (fun b hb => h b (List.mem_cons_of_mem y hb))]

theorem getField_updateFoundDoc (u c : Nat) (d : MDoc) (k : Str)
    (h1 : ¬ k = ("associatedUsers".toList)) (h2 : ¬ k = ("updateUser".toList))
    (h3 : ¬ k = ("latestUpdateTimestamp".toList)) :
    getField (updateFoundDoc u c d).fields k = getField d.fields k := by
  simp only [updateFoundDoc]
  rw [getField_setAssoc_other _ _ _ _ h3, getField_setAssoc_other _ _ _ _ h2,
    getField_setAssoc_other _ _ _ _ h1]

theorem assocUsersOf_updateFoundDoc (u c : Nat) (d : MDoc) :
    assocUsersOf (updateFoundDoc u c d) = assocUsersOf d ++ [u] := by
  simp only [updateFoundDoc, assocUsersOf]
  rw [getField_setAssoc_other _ _ _ _ (by decide), getField_setAssoc_other _ _ _ _ (by decide),
    getField_setAssoc_self]

theorem updateFoundDoc_id (u c : Nat) (d : MDoc) : (updateFoundDoc u c d).id = d.id := rfl

theorem findOneDoc_append_match (docs : List MDoc) (qp : List (Str × BVal)) (d : MDoc)
    (hnone : findOneDoc docs qp = none)
    (hd : (qp.all (fun kv => getField d.fields kv.1 = some kv.2)) = true) :
    findOneDoc (docs ++ [d]) qp = some d := by
  rw [findOneDoc] at hnone ⊢
  rw [List.find?_append, hnone, Option.none_or, List.find?_cons, hd]

theorem findOneDoc_updateDocIn (docs : List MDoc) (qp : List (Str × BVal)) (did : Nat)
    (f : MDoc → MDoc)
    (hp : ∀ d ∈ docs,
      (qp.all (fun kv => getField (f d).fields kv.1 = some kv.2)) =
        (qp.all (fun kv => getField d.fields kv.1 = some kv.2))) :
    findOneDoc (updateDocIn docs did f) qp =
      Option.map (fun d => if d.id = did then f d else d) (findOneDoc docs qp) := by
  rw [findOneDoc, findOneDoc, updateDocIn]
  apply find?_map_pres
  intro d hd
  by_cases hid : d.id = did
  · rw [if_pos hid]
    exact hp d hd
  · rw [if_neg hid]

theorem getField_type_override (tdb : List MDoc) (et : Str) (doc2 : List (Str × BVal))
    (k : Str) (hk : ¬ k = ("type".toList)) :
    getField (match findOneDoc tdb [("name".toList, .vStr et)] with
      | some tdoc => setAssoc doc2 ("type".toList) (.vId tdoc.id)
      | none => doc2) k = getField doc2 k := by
  cases findOneDoc tdb [("name".toList, .vStr et)] with
  | none => rfl
  | some tdoc => exact getField_setAssoc_other _ _ _ _ hk

theorem getField_mr_override (et : Str) (b : Option Str) (doc1 : List (Str × BVal))
    (k : Str) (hk1 : ¬ k = ("measures".toList)) (hk2 : ¬ k = ("relations".toList)) :
    getField (if et = "persons".toList then setAssoc doc1 ("measures".toList) (.vIdList [])
      else if et = "institutions".toList ∨ et = "events".toList ∨ b.isNone then
        setAssoc doc1 ("relations".toList) (.vIdList [])
      else doc1) k = getField doc1 k := by
  split_ifs with h1 h2
  · exact getField_setAssoc_other _ _ _ _ hk1
  · exact getField_setAssoc_other _ _ _ _ hk2
  · rfl

theorem getColl_mk (td ud : List MDoc) (cs : List (Str × List MDoc)) (au : Nat)
    (ae : Option (List (Str × Str))) (ui ni ck : Nat) (n : Str) (L : List MDoc) :
    getColl ⟨td, ud, setAssoc cs n L, au, ae, ui, ni, ck⟩ n = L := by
  simp only [getColl]
  rw [find?_setAssoc_self]

theorem getColl_length_match (st : MongoState) (n : Str) :
    (getColl st n).length = (match st.colls.find? (fun e => e.1 = n) with
      | some e => e.2.length | none => 0) := by
  rw [getColl]
  cases st.colls.find? (fun e => e.1 = n) <;> rfl

theorem merge_entity_init (st : MongoState) (dn en : Str) (params : List (Str × BVal))
    (hae : st.activeEntities = none) :
    merge_entity st dn en params =
      merge_entity { st with activeEntities := some (computeActiveEntities st.typesDb) }
        dn en params := by
  simp only [merge_entity, hae]

theorem merge_entity_second_aux (st : MongoState) (ae : List (Str × Str)) (dn en : Str)
    (params : List (Str × BVal)) (hae : st.activeEntities = some ae)
    (hcolls : (st.colls.map (fun e => e.1)).Nodup)
    (hnd : (params.map (fun e => e.1)).Nodup)
    (hres : ∀ k ∈ params.map (fun e => e.1), k ∉ reservedParamKeys) :
    merge_entity (merge_entity st dn en params).2 dn en params =
      merge_entity st dn en params ∧
    entityDocsTotal (merge_entity st dn en params).2 ≤ entityDocsTotal st + 1 := by
  have hqpnd : ((setAssoc params
      ((lookupStr predefined (pyLower dn)).getD ("description".toList))
      (.vStr en)).map (fun e => e.1)).Nodup := setAssoc_keys_nodup params _ _ hnd
  have hqpk : ∀ k ∈ (setAssoc params
      ((lookupStr predefined (pyLower dn)).getD ("description".toList))
      (.vStr en)).map (fun e => e.1), k ∉ reservedParamKeys := by
    intro k hk
    rcases (setAssoc_keys_mem params _ _ k).mp hk with rfl | hk2
    · exact (field_name_not_reserved (pyLower dn)).1
    · exact hres k hk2
  cases hlook : lookupStr ae (pyLower dn) with
  | none =>
    have h1 := merge_entity_unknown_type st ae dn en params hae hlook
    rw [h1]
    exact ⟨h1, Nat.le_succ _⟩
  | some et =>
    by_cases hne : et = []
    · have h1 := merge_entity_empty_type st ae dn en params hae
        (by rw [← hne]; exact hlook)
      rw [h1]
      exact ⟨h1, Nat.le_succ _⟩
    · cases huser : (if et = "persons".toList then
          match findOneDoc st.usersDb [("username".toList, .vStr en)] with
          | some u => some u.id
          | none => none
        else none) with
      | some uid =>
        have h1 := merge_entity_user_hit st ae dn en params et uid hae hlook hne huser
        rw [h1]
        exact ⟨h1, Nat.le_succ _⟩
      | none =>
        let CN : Str := (lookupStr collection_map et).getD ("entities".toList)
        let QP : List (Str × BVal) := setAssoc params
          ((lookupStr predefined (pyLower dn)).getD ("description".toList)) (.vStr en)
        let DOCS : List MDoc := getColl st CN
        cases hfind : findOneDoc DOCS QP with
        | some d =>
          by_cases hmem : st.userId ∈ assocUsersOf d
          · have h1 := merge_entity_found_member st ae dn en params et d hae hlook hne
              huser hfind hmem
            rw [h1]
            exact ⟨h1, Nat.le_succ _⟩
          · have h1 := merge_entity_found_update st ae dn en params et d hae hlook hne
              huser hfind hmem
            rw [h1]
            let UPD : MDoc → MDoc := updateFoundDoc st.userId st.clock
            let L : List MDoc := updateDocIn DOCS d.id UPD
            let ST1 : MongoState := { st with
              colls := setAssoc st.colls CN L,
              audits := st.audits + 1,
              clock := st.clock + 1 }
            have hp : ∀ d' ∈ DOCS,
                (QP.all (fun kv => getField (UPD d').fields kv.1 = some kv.2)) =
                (QP.all (fun kv => getField d'.fields kv.1 = some kv.2)) := by
              intro d' _
              apply all_congr_bool
              intro kv hkv
              have hknr : kv.1 ∉ reservedParamKeys :=
                hqpk kv.1 (List.mem_map.mpr ⟨kv, hkv, rfl⟩)
              rw [getField_updateFoundDoc st.userId st.clock d' kv.1
                (fun he => hknr (by rw [he]; decide))
                (fun he => hknr (by rw [he]; decide))
                (fun he => hknr (by rw [he]; decide))]
            have hgc : getColl ST1 CN = L :=
              getColl_mk st.typesDb st.usersDb st.colls (st.audits + 1)
                st.activeEntities st.userId st.nextId (st.clock + 1) CN L
            have hfindST : findOneDoc (getColl ST1 CN) QP = some (UPD d) := by
              rw [hgc]
              rw [show L = updateDocIn DOCS d.id UPD from rfl]
              rw [findOneDoc_updateDocIn DOCS QP d.id UPD hp, hfind]
              simp
            have hmemST : ST1.userId ∈ assocUsersOf (UPD d) := by
              show st.userId ∈ assocUsersOf (updateFoundDoc st.userId st.clock d)
              rw [assocUsersOf_updateFoundDoc]
              exact List.mem_append_right _ (List.mem_singleton.mpr rfl)
            constructor
            · exact merge_entity_found_member ST1 ae dn en params et (UPD d) hae hlook hne
                huser hfindST hmemST
            · show ((setAssoc st.colls CN L).map (fun e => e.2.length)).sum ≤
                (st.colls.map (fun e => e.2.length)).sum + 1
              have hs := sum_len_setAssoc st.colls CN L hcolls
              have hlen : L.length = (match st.colls.find? (fun e => e.1 = CN) with
                  | some e => e.2.length | none => 0) := by
                rw [show L = updateDocIn DOCS d.id UPD from rfl, updateDocIn,
                  List.length_map]
                exact getColl_length_match st CN
              rw [hlen] at hs
              have heq := Nat.add_right_cancel hs
              rw [heq]
              exact Nat.le_succ _
        | none =>
          let FN : Str := (lookupStr predefined (pyLower dn)).getD ("description".toList)
          let BASE : List (Str × BVal) :=
            [("active".toList, .vBool true), ("creationUser".toList, .vId st.userId),
             ("updateUser".toList, .vId st.userId),
             ("creationTimestamp".toList, .vTime st.clock),
             ("latestUpdateTimestamp".toList, .vTime st.clock),
             ("namespace".toList, .vStr ("interfolia".toList)), ("__v".toList, .vNat 0),
             ("associatedUsers".toList, .vIdList [st.userId])]
          let doc1 : List (Str × BVal) := QP.foldl (fun f kv => setAssoc f kv.1 kv.2) BASE
          let doc2 : List (Str × BVal) :=
            if et = "persons".toList then setAssoc doc1 ("measures".toList) (.vIdList [])
            else if et = "institutions".toList ∨ et = "events".toList
                ∨ (lookupStr collection_map et).isNone then
              setAssoc doc1 ("relations".toList) (.vIdList [])
            else doc1
          let doc3 : List (Str × BVal) :=
            match findOneDoc st.typesDb [("name".toList, .vStr et)] with
            | some tdoc => setAssoc doc2 ("type".toList) (.vId tdoc.id)
            | none => doc2
          have h1 := merge_entity_insert st ae dn en params et doc1 doc2 doc3 hae hlook hne
            huser hfind rfl rfl rfl
          rw [h1]
          let ND : MDoc := ⟨st.nextId, doc3⟩
          let L : List MDoc := DOCS ++ [ND]
          let ST1 : MongoState := { st with
            colls := setAssoc st.colls CN L,
            nextId := st.nextId + 1,
            audits := st.audits + 1,
            clock := st.clock + 1 }
          have hall : (QP.all (fun kv => getField doc3 kv.1 = some kv.2)) = true := by
            simp only [List.all_eq_true, decide_eq_true_eq]
            intro kv hkv
            have hk := hqpk kv.1 (List.mem_map.mpr ⟨kv, hkv, rfl⟩)
            have e1 : getField doc3 kv.1 = getField doc2 kv.1 :=
              getField_type_override st.typesDb et doc2 kv.1 (fun he => hk (by rw [he]; decide))
            have e2 : getField doc2 kv.1 = getField doc1 kv.1 :=
              getField_mr_override et (lookupStr collection_map et) doc1 kv.1
                (fun he => hk (by rw [he]; decide)) (fun he => hk (by rw [he]; decide))
            have e3 : getField doc1 kv.1 = some kv.2 :=
              getField_foldl_setAssoc_mem QP BASE kv hkv hqpnd
            rw [e1, e2, e3]
          have hassoc_notin : ("associatedUsers".toList) ∉ QP.map (fun e => e.1) :=
            fun hm => hqpk _ hm (by decide)
          have hgf : getField doc3 ("associatedUsers".toList) =
              some (.vIdList [st.userId]) := by
            have g1 : getField doc3 ("associatedUsers".toList) =
                getField doc2 ("associatedUsers".toList) :=
              getField_type_override st.typesDb et doc2 _ (by decide)
            have g2 : getField doc2 ("associatedUsers".toList) =
                getField doc1 ("associatedUsers".toList) :=
              getField_mr_override et (lookupStr collection_map et) doc1 _
                (by decide) (by decide)
            have g3 : getField doc1 ("associatedUsers".toList) =
                getField BASE ("associatedUsers".toList) :=
              getField_foldl_setAssoc_notin QP BASE _ hassoc_notin
            have g4 : getField BASE ("associatedUsers".toList) =
                some (.vIdList [st.userId]) := rfl
            rw [g1, g2, g3, g4]
          have hgc : getColl ST1 CN = L :=
            getColl_mk st.typesDb st.usersDb st.colls (st.audits + 1)
              st.activeEntities st.userId (st.nextId + 1) (st.clock + 1) CN L
          have hfindST : findOneDoc (getColl ST1 CN) QP = some ND := by
            rw [hgc]
            rw [show L = DOCS ++ [ND] from rfl]
            exact findOneDoc_append_match DOCS QP ND hfind hall
          have hmemST : ST1.userId ∈ assocUsersOf ND := by
            show st.userId ∈ assocUsersOf ND
            simp only [assocUsersOf]
            rw [hgf]
            simp
          constructor
          · exact merge_entity_found_member ST1 ae dn en params et ND hae hlook hne
              huser hfindST hmemST
          · show ((setAssoc st.colls CN L).map (fun e => e.2.length)).sum ≤
              (st.colls.map (fun e => e.2.length)).sum + 1
            have hs := sum_len_setAssoc st.colls CN L hcolls
            have hlen : L.length = (match st.colls.find? (fun e => e.1 = CN) with
                | some e => e.2.length | none => 0) + 1 := by
              rw [show L = DOCS ++ [ND] from rfl, List.length_append]
              rw [show DOCS = getColl st CN from rfl, getColl_length_match st CN]
              rfl
            rw [hlen] at hs
            omega

/-- C1: merge_entity find-before-create idempotence, amended. Provided the
`params` dict does not use any of the metadata keys that `merge_entity` itself
writes after building the insert document (`type`, `measures`, `relations`,
`associatedUsers`, `updateUser`, `latestUpdateTimestamp`), calling
`merge_entity` twice in sequence with identical `(display_name, entity_name,
params)` returns the same id both times, the second call leaves the store
completely unchanged (it finds the record the first call created or found and
does not insert), and the pair of calls grows the entity collections by at
most one document. The Nodup hypotheses only express that Python dicts have
unique keys. Without the reserved-key restriction the claim is false: see the
counterexample, where `params = {"type": "x"}` makes the first call insert a
document whose `type` field is overwritten by the type-document id, so the
second call's `find_one(query_params)` misses and inserts again. -/
theorem C1_merge_entity_idempotent_amended (st : MongoState) (dn en : Str)
    (params : List (Str × BVal))
    (hcolls : (st.colls.map (fun e => e.1)).Nodup)
    (hnd : (params.map (fun e => e.1)).Nodup)
    (hres : ∀ k ∈ params.map (fun e => e.1), k ∉ reservedParamKeys) :
    merge_entity (merge_entity st dn en params).2 dn en params =
      merge_entity st dn en params ∧
    entityDocsTotal (merge_entity st dn en params).2 ≤ entityDocsTotal st + 1 := by
  cases haeo : st.activeEntities with
  | some ae => exact merge_entity_second_aux st ae dn en params haeo hcolls hnd hres
  | none =>
    rw [merge_entity_init st dn en params haeo]
    exact merge_entity_second_aux _ (computeActiveEntities st.typesDb) dn en params
      rfl hcolls hnd hres

/-- C1 counterexample: with `params = {"type": "x"}` (a key `merge_entity`
itself overwrites on insert), two identical calls return two different ids and
insert two documents — the claimed find-before-create idempotence fails for
arbitrary `params`. -/
theorem C1_merge_entity_idempotent_counterexample :
    (let st : MongoState := ⟨[⟨1, [(("name".toList), .vStr ("work".toList)),
        (("active".toList), .vBool true),
        (("displayName".toList), .vStr ("Work".toList))]⟩], [],
      [(("works".toList), [])], 0, none, 7, 100, 0⟩
     let r1 := merge_entity st ("Work".toList) ("thing".toList)
       [(("type".toList), .vStr ("x".toList))]
     let r2 := merge_entity r1.2 ("Work".toList) ("thing".toList)
       [(("type".toList), .vStr ("x".toList))]
     r1.1 = some 100 ∧ r2.1 = some 101 ∧ ¬ r2.1 = r1.1 ∧
       entityDocsTotal r2.2 = entityDocsTotal st + 2) := by decide

/-- C1 witness: the amended idempotence theorem applied at a concrete store
and a benign `params` dict. -/
theorem C1_merge_entity_idempotent_witness :
    merge_entity (merge_entity (⟨[⟨1, [(("name".toList), .vStr ("work".toList)),
        (("active".toList), .vBool true),
        (("displayName".toList), .vStr ("Work".toList))]⟩], [],
      [(("works".toList), [])], 0, none, 7, 100, 0⟩ : MongoState)
        ("Work".toList) ("thing".toList)
        [(("color".toList), .vStr ("red".toList))]).2
      ("Work".toList) ("thing".toList) [(("color".toList), .vStr ("red".toList))] =
      merge_entity (⟨[⟨1, [(("name".toList), .vStr ("work".toList)),
        (("active".toList), .vBool true),
        (("displayName".toList), .vStr ("Work".toList))]⟩], [],
      [(("works".toList), [])], 0, none, 7, 100, 0⟩ : MongoState)
        ("Work".toList) ("thing".toList) [(("color".toList), .vStr ("red".toList))] ∧
    entityDocsTotal (merge_entity (⟨[⟨1, [(("name".toList), .vStr ("work".toList)),
        (("active".toList), .vBool true),
        (("displayName".toList), .vStr ("Work".toList))]⟩], [],
      [(("works".toList), [])], 0, none, 7, 100, 0⟩ : MongoState)
        ("Work".toList) ("thing".toList)
        [(("color".toList), .vStr ("red".toList))]).2 ≤
      entityDocsTotal (⟨[⟨1, [(("name".toList), .vStr ("work".toList)),
        (("active".toList), .vBool true),
        (("displayName".toList), .vStr ("Work".toList))]⟩], [],
      [(("works".toList), [])], 0, none, 7, 100, 0⟩ : MongoState) + 1 :=
  C1_merge_entity_idempotent_amended _ _ _ _ (by decide) (by decide) (by decide)

theorem find?_mapset_self_k {κ β : Type} [DecidableEq κ] (m : List (κ × β)) (k : κ)
    (v : β) (h : m.any (fun e => e.1 = k) = true) :
    (m.map (fun e => if e.1 = k then (k, v) else e)).find? (fun e => e.1 = k) =
      some (k, v) := by
  induction m with
  | nil => simp at h
  | cons e t ih =>
    by_cases he : e.1 = k
    · rw [List.map_cons, if_pos he, List.find?_cons]
      simp
    · simp only [List.any_cons, Bool.or_eq_true, decide_eq_true_eq] at h
      rcases h with h | h
      · exact absurd h he
      · rw [List.map_cons, if_neg he, List.find?_cons]
        have h2 : (decide (e.1 = k)) = false := by simp [he]
        rw [h2]
        exact ih h

theorem lookupKey_setAssocK_self {κ β : Type} [DecidableEq κ] (m : List (κ × β))
    (k : κ) (v : β) : lookupKey (setAssocK m k v) k = some v := by
  rw [lookupKey]
  by_cases hany : m.any (fun e => e.1 = k) = true
  · rw [setAssocK, if_pos hany, find?_mapset_self_k m k v hany]
  · rw [setAssocK, if_neg hany, List.find?_append,
      List.find?_eq_none.mpr (fun x hx hp => hany (List.any_eq_true.mpr ⟨x, hx, hp⟩))]
    simp only [Option.none_or, List.find?_cons, List.find?_nil]
    rfl

theorem lookupKey_filter_self {κ β : Type} [DecidableEq κ] (m : List (κ × β))
    (k : κ) : lookupKey (m.filter (fun e => ¬ e.1 = k)) k = none := by
  rw [lookupKey]
  have h0 : (m.filter (fun e => ¬ e.1 = k)).find? (fun e => e.1 = k) = none := by
    rw [List.find?_eq_none]
    intro x hx
    have h1 := List.of_mem_filter hx
    simp only [decide_eq_true_eq] at h1 ⊢
    exact h1
  rw [h0]

theorem forall_mem_set {α : Type} (l : List α) (i : Nat) (y : α) (p : α → Prop)
    (hl : ∀ x ∈ l, p x) (hy : p y) : ∀ x ∈ l.set i y, p x := fun x hx =>
  (List.mem_or_eq_of_mem_set hx).elim (hl x) (fun h => h ▸ hy)

theorem mem_to_getElem {α : Type} (l : List α) (x : α) (h : x ∈ l) :
    ∃ i : Nat, l[i]? = some x := by
  obtain ⟨n, hn, he⟩ := List.mem_iff_getElem.mp h
  exact ⟨n, by rw [List.getElem?_eq_getElem hn, he]⟩

theorem forall_mem_set_of_indexed {α : Type} (l : List α) (i : Nat) (y : α)
    (p : α → Prop) (hother : ∀ j, ¬ j = i → ∀ x, l[j]? = some x → p x) (hy : p y) :
    ∀ x ∈ l.set i y, p x := by
  intro x hx
  obtain ⟨j, hj⟩ := mem_to_getElem _ x hx
  by_cases hji : j = i
  · subst hji
    by_cases hlt : j < l.length
    · rw [List.getElem?_set_eq_of_lt y hlt] at hj
      injection hj with hj
      rw [← hj]
      exact hy
    · rw [List.set_eq_of_length_le (Nat.le_of_not_lt hlt)] at hj
      rw [List.getElem?_eq_none (Nat.le_of_not_lt hlt)] at hj
      exact absurd hj (by simp)
  · rw [List.getElem?_set_ne (fun h => hji h.symm)] at hj
    exact hother j hji x hj

theorem relPhase_preserves (a : RelArgs) (g : RelState) (rtid : Nat) :
    (relPhase a g rtid).2.typesDb = g.typesDb ∧
    (relPhase a g rtid).2.userId = g.userId ∧
    (relPhase a g rtid).2.rtDocs = g.rtDocs ∧
    (relPhase a g rtid).2.rtCache = g.rtCache ∧
    (relPhase a g rtid).2.locks = g.locks := by
  rw [relPhase]
  cases lookupKey g.relCache (relKeyOf a rtid) with
  | some rid => exact ⟨rfl, rfl, rfl, rfl, rfl⟩
  | none => exact ⟨rfl, rfl, rfl, rfl, rfl⟩

theorem relPhase_late (a : RelArgs) (g : RelState) (rtid : Nat) :
    lateR rtid (relPhase a g rtid).1 := by
  rw [relPhase]
  cases lookupKey g.relCache (relKeyOf a rtid) with
  | some rid => exact Or.inr (Or.inr ⟨rid, rfl⟩)
  | none => exact Or.inl ⟨g.nextId, rfl⟩

theorem InvR_step (a : RelArgs) (st0 : RelState) (s t : Nat)
    (hsrc : (findOneDoc st0.typesDb [("name".toList, .vStr a.srcT)]).map
      (fun d => d.id) = some s)
    (htrg : (findOneDoc st0.typesDb [("name".toList, .vStr a.trgT)]).map
      (fun d => d.id) = some t)
    (cfg : List RTask × RelState) (hInv : InvR a st0 s t cfg) (i : Nat) :
    InvR a st0 s t (stepSys a cfg i) := by
  obtain ⟨tasks, g⟩ := cfg
  obtain ⟨hty, huid, hph⟩ := hInv
  cases hget : tasks[i]? with
  | none =>
    simp only [stepSys, hget]
    exact ⟨hty, huid, hph⟩
  | some ts =>
    simp only [stepSys, hget]
    rcases hph with ⟨hc, hl, hd, hall⟩ | ⟨i0, rtid, hl, hc, hd, hh, ho⟩ |
      ⟨rtid, hc, hl, hd, hall⟩
    · -- phase 0: key untouched
      rcases hall ts (List.getElem?_mem hget) with rfl | rfl | rfl
      · simp only [stepRTask]
        refine ⟨hty, huid, Or.inl ⟨hc, hl, hd, ?_⟩⟩
        refine forall_mem_set _ _ _ _ hall ?_
        rw [hty, hsrc]
        exact Or.inr (Or.inl rfl)
      · simp only [stepRTask]
        refine ⟨hty, huid, Or.inl ⟨hc, hl, hd, ?_⟩⟩
        refine forall_mem_set _ _ _ _ hall ?_
        rw [hty, htrg]
        exact Or.inr (Or.inr rfl)
      · simp only [stepRTask, hl, hc]
        refine ⟨hty, huid, Or.inr (Or.inl ⟨i, g.nextId, ?_, ?_, ?_, ?_, ?_⟩)⟩
        · exact lookupKey_setAssocK_self _ _ _
        · exact hc
        · show g.rtDocs ++ [⟨g.nextId, rtDocFields a g.userId s t⟩] =
            st0.rtDocs ++ [⟨g.nextId, rtDocFields a st0.userId s t⟩]
          rw [hd, huid]
        · left
          exact List.getElem?_set_eq_of_lt _ (List.getElem?_eq_some.mp hget).1
        · intro j hj ts2 hts2
          rw [List.getElem?_set_ne (fun h => hj h.symm)] at hts2
          exact hall ts2 (List.getElem?_mem hts2)
    · -- phase 1: lock held, id unpublished
      by_cases hii : i = i0
      · subst hii
        rcases hh with hh | hh
        · rw [hget] at hh
          injection hh with hh
          subst hh
          simp only [stepRTask]
          refine ⟨hty, huid, Or.inr (Or.inl ⟨i, rtid, hl, hc, hd, ?_, ?_⟩)⟩
          · right
            exact List.getElem?_set_eq_of_lt _ (List.getElem?_eq_some.mp hget).1
          · intro j hj ts2 hts2
            rw [List.getElem?_set_ne (fun h => hj h.symm)] at hts2
            exact ho j hj ts2 hts2
        · rw [hget] at hh
          injection hh with hh
          subst hh
          simp only [stepRTask]
          let g1 : RelState := { g with
            rtCache := setAssocK g.rtCache (rtKeyOf a s t) rtid,
            locks := g.locks.filter (fun e => ¬ e.1 = rtKeyOf a s t) }
          obtain ⟨p1, p2, p3, p4, p5⟩ := relPhase_preserves a g1 rtid
          have hcache : lookupKey (relPhase a g1 rtid).2.rtCache (rtKeyOf a s t) =
              some rtid := by
            rw [p4]
            exact lookupKey_setAssocK_self _ _ _
          have hlock2 : lookupKey (relPhase a g1 rtid).2.locks (rtKeyOf a s t) =
              none := by
            rw [p5]
            exact lookupKey_filter_self _ _
          have hdocs : (relPhase a g1 rtid).2.rtDocs =
              st0.rtDocs ++ [⟨rtid, rtDocFields a st0.userId s t⟩] := by
            rw [p3]
            exact hd
          refine ⟨p1.trans hty, p2.trans huid,
            Or.inr (Or.inr ⟨rtid, hcache, hlock2, hdocs, ?_⟩)⟩
          refine forall_mem_set_of_indexed _ _ _ _ ?_ ?_
          · intro j hj ts2 hts2
            exact Or.inl (ho j hj ts2 hts2)
          · exact Or.inr (relPhase_late a g1 rtid)
      · have hear := ho i hii ts hget
        rcases hear with rfl | rfl | rfl
        · simp only [stepRTask]
          refine ⟨hty, huid, Or.inr (Or.inl ⟨i0, rtid, hl, hc, hd, ?_, ?_⟩)⟩
          · rcases hh with hh | hh
            · left
              rw [List.getElem?_set_ne hii]
              exact hh
            · right
              rw [List.getElem?_set_ne hii]
              exact hh
          · intro j hj ts2 hts2
            by_cases hji : j = i
            · subst hji
              rw [List.getElem?_set_eq_of_lt _ (List.getElem?_eq_some.mp hget).1] at hts2
              injection hts2 with hts2
              rw [← hts2, hty, hsrc]
              exact Or.inr (Or.inl rfl)
            · rw [List.getElem?_set_ne (fun h => hji h.symm)] at hts2
              exact ho j hj ts2 hts2
        · simp only [stepRTask]
          refine ⟨hty, huid, Or.inr (Or.inl ⟨i0, rtid, hl, hc, hd, ?_, ?_⟩)⟩
          · rcases hh with hh | hh
            · left
              rw [List.getElem?_set_ne hii]
              exact hh
            · right
              rw [List.getElem?_set_ne hii]
              exact hh
          · intro j hj ts2 hts2
            by_cases hji : j = i
            · subst hji
              rw [List.getElem?_set_eq_of_lt _ (List.getElem?_eq_some.mp hget).1] at hts2
              injection hts2 with hts2
              rw [← hts2, hty, htrg]
              exact Or.inr (Or.inr rfl)
            · rw [List.getElem?_set_ne (fun h => hji h.symm)] at hts2
              exact ho j hj ts2 hts2
        · simp only [stepRTask, hl]
          refine ⟨hty, huid, Or.inr (Or.inl ⟨i0, rtid, hl, hc, hd, ?_, ?_⟩)⟩
          · rcases hh with hh | hh
            · left
              rw [List.getElem?_set_ne hii]
              exact hh
            · right
              rw [List.getElem?_set_ne hii]
              exact hh
          · intro j hj ts2 hts2
            by_cases hji : j = i
            · subst hji
              rw [List.getElem?_set_eq_of_lt _ (List.getElem?_eq_some.mp hget).1] at hts2
              injection hts2 with hts2
              rw [← hts2]
              exact Or.inr (Or.inr rfl)
            · rw [List.getElem?_set_ne (fun h => hji h.symm)] at hts2
              exact ho j hj ts2 hts2
    · -- phase 2: id published, lock free
      rcases hall ts (List.getElem?_mem hget) with hear | hlate
      · rcases hear with rfl | rfl | rfl
        · simp only [stepRTask]
          refine ⟨hty, huid, Or.inr (Or.inr ⟨rtid, hc, hl, hd, ?_⟩)⟩
          refine forall_mem_set _ _ _ _ hall ?_
          left
          rw [hty, hsrc]
          exact Or.inr (Or.inl rfl)
        · simp only [stepRTask]
          refine ⟨hty, huid, Or.inr (Or.inr ⟨rtid, hc, hl, hd, ?_⟩)⟩
          refine forall_mem_set _ _ _ _ hall ?_
          left
          rw [hty, htrg]
          exact Or.inr (Or.inr rfl)
        · simp only [stepRTask, hl, hc]
          obtain ⟨p1, p2, p3, p4, p5⟩ := relPhase_preserves a g rtid
          have hcache : lookupKey (relPhase a g rtid).2.rtCache (rtKeyOf a s t) =
              some rtid := by
            rw [p4]
            exact hc
          have hlock2 : lookupKey (relPhase a g rtid).2.locks (rtKeyOf a s t) =
              none := by
            rw [p5]
            exact hl
          have hdocs : (relPhase a g rtid).2.rtDocs =
              st0.rtDocs ++ [⟨rtid, rtDocFields a st0.userId s t⟩] := by
            rw [p3]
            exact hd
          refine ⟨p1.trans hty, p2.trans huid,
            Or.inr (Or.inr ⟨rtid, hcache, hlock2, hdocs, ?_⟩)⟩
          refine forall_mem_set _ _ _ _ hall ?_
          exact Or.inr (relPhase_late a g rtid)
      · rcases hlate with ⟨rid, rfl⟩ | ⟨rid, rfl⟩ | ⟨rid, rfl⟩
        · simp only [stepRTask]
          refine ⟨hty, huid, Or.inr (Or.inr ⟨rtid, hc, hl, hd, ?_⟩)⟩
          refine forall_mem_set _ _ _ _ hall ?_
          exact Or.inr (Or.inr (Or.inl ⟨rid, rfl⟩))
        · simp only [stepRTask]
          refine ⟨hty, huid, Or.inr (Or.inr ⟨rtid, hc, hl, hd, ?_⟩)⟩
          refine forall_mem_set _ _ _ _ hall ?_
          exact Or.inr (Or.inr (Or.inr ⟨rid, rfl⟩))
        · simp only [stepRTask]
          refine ⟨hty, huid, Or.inr (Or.inr ⟨rtid, hc, hl, hd, ?_⟩)⟩
          refine forall_mem_set _ _ _ _ hall ?_
          exact Or.inr (Or.inr (Or.inr ⟨rid, rfl⟩))

theorem InvR_init (a : RelArgs) (st0 : RelState) (s t : Nat)
    (hkey : lookupKey st0.rtCache (rtKeyOf a s t) = none)
    (hlock : lookupKey st0.locks (rtKeyOf a s t) = none) (N : Nat) :
    InvR a st0 s t (List.replicate N .start, st0) :=
  ⟨rfl, rfl, Or.inl ⟨hkey, hlock, rfl,
    fun ts hts => Or.inl (List.eq_of_mem_replicate hts)⟩⟩

theorem InvR_run (a : RelArgs) (st0 : RelState) (s t : Nat)
    (hsrc : (findOneDoc st0.typesDb [("name".toList, .vStr a.srcT)]).map
      (fun d => d.id) = some s)
    (htrg : (findOneDoc st0.typesDb [("name".toList, .vStr a.trgT)]).map
      (fun d => d.id) = some t)
    (cfg : List RTask × RelState) (hInv : InvR a st0 s t cfg) (σ : List Nat) :
    InvR a st0 s t (runSched a cfg σ) := by
  induction σ generalizing cfg with
  | nil => exact hInv
  | cons x xs ih => exact ih _ (InvR_step a st0 s t hsrc htrg cfg hInv x)

theorem stepSys_length (a : RelArgs) (cfg : List RTask × RelState) (i : Nat) :
    (stepSys a cfg i).1.length = cfg.1.length := by
  rw [stepSys]
  cases hget : cfg.1[i]? with
  | none => rfl
  | some ts => exact List.length_set _ _ _

theorem runSched_length (a : RelArgs) (cfg : List RTask × RelState) (σ : List Nat) :
    (runSched a cfg σ).1.length = cfg.1.length := by
  induction σ generalizing cfg with
  | nil => rfl
  | cons x xs ih => exact (ih (stepSys a cfg x)).trans (stepSys_length a cfg x)

/-- C2: relation-type race safety under the per-key lock, amended. Fix one
`merge_relation` argument tuple whose relation-type key is previously unseen
(not in the `relation_types` cache, lock free) and whose source and target
type documents resolve; launch `N ≥ 1` concurrent calls. For EVERY
interleaving of the tasks' atomic segments in which all tasks have returned:
exactly one relation-type document has been inserted, the cache maps the key
to its id, and every task returned having observed that same id. The second
half of the original claim — at most one relation record per
`(entity1, entity2, relationTypeId)` — is NOT guaranteed: the relations-cache
check and the relation insert happen outside the lock with an `await` between
them (see the counterexample, where two tasks insert two identical relation
documents). -/
theorem C2_relation_type_race_amended (a : RelArgs) (st0 : RelState) (N : Nat)
    (σ : List Nat) (s t : Nat)
    (hsrc : (findOneDoc st0.typesDb [("name".toList, .vStr a.srcT)]).map
      (fun d => d.id) = some s)
    (htrg : (findOneDoc st0.typesDb [("name".toList, .vStr a.trgT)]).map
      (fun d => d.id) = some t)
    (hkey : lookupKey st0.rtCache (rtKeyOf a s t) = none)
    (hlock : lookupKey st0.locks (rtKeyOf a s t) = none)
    (hN : 0 < N)
    (hdone : ∀ ts ∈ (runSched a (List.replicate N .start, st0) σ).1,
      isDoneR ts = true) :
    ∃ rtid,
      (runSched a (List.replicate N .start, st0) σ).2.rtDocs =
        st0.rtDocs ++ [⟨rtid, rtDocFields a st0.userId s t⟩] ∧
      lookupKey (runSched a (List.replicate N .start, st0) σ).2.rtCache
        (rtKeyOf a s t) = some rtid ∧
      ∀ ts ∈ (runSched a (List.replicate N .start, st0) σ).1,
        ∃ rid, ts = .doneSome rtid rid := by
  have hInv := InvR_run a st0 s t hsrc htrg _
    (InvR_init a st0 s t hkey hlock N) σ
  obtain ⟨hty, huid, hph⟩ := hInv
  have hlen : (runSched a (List.replicate N .start, st0) σ).1.length = N := by
    rw [runSched_length]
    exact List.length_replicate N _
  have hne : (runSched a (List.replicate N .start, st0) σ).1 ≠ [] := by
    intro h
    rw [h] at hlen
    simp at hlen
    omega
  obtain ⟨ts0, hts0⟩ := List.exists_mem_of_ne_nil _ hne
  have hd0 : isDoneR ts0 = true := hdone ts0 hts0
  rcases hph with ⟨hc, hl, hd, hall⟩ | ⟨i0, rtid, hl, hc, hd, hh, ho⟩ |
    ⟨rtid, hc, hl, hd, hall⟩
  · rcases hall ts0 hts0 with rfl | rfl | rfl <;> simp [isDoneR] at hd0
  · obtain ⟨j, hj⟩ := mem_to_getElem _ ts0 hts0
    by_cases hji : j = i0
    · subst hji
      rcases hh with hh | hh <;>
        (rw [hj] at hh; injection hh with hh; rw [hh] at hd0; simp [isDoneR] at hd0)
    · rcases ho j hji ts0 hj with rfl | rfl | rfl <;> simp [isDoneR] at hd0
  · refine ⟨rtid, hd, hc, ?_⟩
    intro ts hts
    have hdts := hdone ts hts
    rcases hall ts hts with hear | hlate
    · rcases hear with rfl | rfl | rfl <;> simp [isDoneR] at hdts
    · rcases hlate with ⟨rid, rfl⟩ | ⟨rid, rfl⟩ | ⟨rid, rfl⟩
      · simp [isDoneR] at hdts
      · simp [isDoneR] at hdts
      · exact ⟨rid, rfl⟩

/-- C2 counterexample: two concurrent calls with identical arguments, with
the relation-type id already published by the first task but the relations
cache not yet updated when the second task runs its cache check, insert TWO
relation documents with the same `(entity1, entity2, relationType)` — the "at
most one relation record per distinct key" half of the claim fails (the check
and insert are outside the lock, separated by an `await`). The relation-type
record is still unique. -/
theorem C2_relation_type_race_counterexample :
    (let a : RelArgs := ⟨("knows".toList), ("person".toList), ("place".toList), 3, 4⟩
     let st0 : RelState := ⟨[⟨1, [(("name".toList), .vStr ("person".toList))]⟩,
       ⟨2, [(("name".toList), .vStr ("place".toList))]⟩], [], [], 0, [], [], [], 9, 50⟩
     let r := runSched a ([.start, .start], st0) [0, 0, 0, 1, 1, 1, 0, 0, 1, 0, 0, 1, 1]
     (∀ ts ∈ r.1, isDoneR ts = true) ∧
     r.2.rtDocs.length = 1 ∧
     (r.2.relDocs.countP (fun d => d.fields = relDocFields a 50)) = 2 ∧
     r.1 = [.doneSome 50 51, .doneSome 50 52]) := by decide

/-- C2 witness: the amended race-safety theorem applied to two concurrent
calls under a concrete completing schedule. -/
theorem C2_relation_type_race_witness :
    ∃ rtid,
      (runSched (⟨("knows".toList), ("person".toList), ("place".toList), 3, 4⟩ : RelArgs)
        (List.replicate 2 .start,
         (⟨[⟨1, [(("name".toList), .vStr ("person".toList))]⟩,
            ⟨2, [(("name".toList), .vStr ("place".toList))]⟩],
           [], [], 0, [], [], [], 9, 50⟩ : RelState))
        [0, 0, 0, 0, 0, 0, 0, 1, 1, 1]).2.rtDocs =
        (⟨[⟨1, [(("name".toList), .vStr ("person".toList))]⟩,
            ⟨2, [(("name".toList), .vStr ("place".toList))]⟩],
           [], [], 0, [], [], [], 9, 50⟩ : RelState).rtDocs ++
          [⟨rtid, rtDocFields (⟨("knows".toList), ("person".toList), ("place".toList),
            3, 4⟩ : RelArgs)
            (⟨[⟨1, [(("name".toList), .vStr ("person".toList))]⟩,
               ⟨2, [(("name".toList), .vStr ("place".toList))]⟩],
              [], [], 0, [], [], [], 9, 50⟩ : RelState).userId 1 2⟩] ∧
      lookupKey (runSched (⟨("knows".toList), ("person".toList), ("place".toList),
          3, 4⟩ : RelArgs)
        (List.replicate 2 .start,
         (⟨[⟨1, [(("name".toList), .vStr ("person".toList))]⟩,
            ⟨2, [(("name".toList), .vStr ("place".toList))]⟩],
           [], [], 0, [], [], [], 9, 50⟩ : RelState))
        [0, 0, 0, 0, 0, 0, 0, 1, 1, 1]).2.rtCache
        (rtKeyOf (⟨("knows".toList), ("person".toList), ("place".toList), 3, 4⟩ :
          RelArgs) 1 2) = some rtid ∧
      ∀ ts ∈ (runSched (⟨("knows".toList), ("person".toList), ("place".toList), 3, 4⟩ :
          RelArgs)
        (List.replicate 2 .start,
         (⟨[⟨1, [(("name".toList), .vStr ("person".toList))]⟩,
            ⟨2, [(("name".toList), .vStr ("place".toList))]⟩],
           [], [], 0, [], [], [], 9, 50⟩ : RelState))
        [0, 0, 0, 0, 0, 0, 0, 1, 1, 1]).1,
        ∃ rid, ts = .doneSome rtid rid :=
  C2_relation_type_race_amended _ _ 2 _ 1 2 (by decide) (by decide) (by decide)
    (by decide) (by decide) (by decide)

/-- C9: when the source-type or target-type document cannot be found,
`merge_relation` returns `None` before touching any collection (lines
180-184). In the machine: a single task runs to `doneNone` (its three atomic
segments: issue the two `find_one`s, observe a missing document, return), and
no schedule ever changes the store or the caches. -/
theorem C9_merge_relation_missing_type (a : RelArgs) (st0 : RelState)
    (hmiss : findOneDoc st0.typesDb [("name".toList, .vStr a.srcT)] = none ∨
             findOneDoc st0.typesDb [("name".toList, .vStr a.trgT)] = none) :
    (runSched a ([.start], st0) [0, 0, 0]).1 = [.doneNone] ∧
    ∀ σ : List Nat, (runSched a ([.start], st0) σ).2 = st0 := by
  constructor
  · show (stepSys a (stepSys a (stepSys a ([.start], st0) 0) 0) 0).1 = [.doneNone]
    rw [show stepSys a (stepSys a ([.start], st0) 0) 0 =
      ([.gotTrg ((findOneDoc st0.typesDb
          [("name".toList, .vStr a.srcT)]).map (fun d => d.id))
        ((findOneDoc st0.typesDb
          [("name".toList, .vStr a.trgT)]).map (fun d => d.id))], st0) from rfl]
    rcases hmiss with hm | hm
    · rw [hm]
      rfl
    · cases hsv : findOneDoc st0.typesDb [("name".toList, .vStr a.srcT)] with
      | none => rfl
      | some sd =>
        rw [hm]
        rfl
  · have H : ∀ (σ : List Nat) (cfg : List RTask × RelState),
        cfg.2 = st0 →
        (cfg.1 = [.start] ∨
         cfg.1 = [.gotSrc ((findOneDoc st0.typesDb
           [("name".toList, .vStr a.srcT)]).map (fun d => d.id))] ∨
         cfg.1 = [.gotTrg ((findOneDoc st0.typesDb
             [("name".toList, .vStr a.srcT)]).map (fun d => d.id))
           ((findOneDoc st0.typesDb
             [("name".toList, .vStr a.trgT)]).map (fun d => d.id))] ∨
         cfg.1 = [.doneNone]) →
        (runSched a cfg σ).2 = st0 := by
      intro σ
      induction σ with
      | nil =>
        intro cfg h1 h2
        exact h1
      | cons x xs ih =>
        intro cfg h1 h2
        obtain ⟨tasks, g⟩ := cfg
        have hg : g = st0 := h1
        subst g
        show (runSched a (stepSys a (tasks, st0) x) xs).2 = st0
        rcases h2 with h2 | h2 | h2 | h2
        · subst h2
          cases x with
          | zero => exact ih _ rfl (Or.inr (Or.inl rfl))
          | succ n => exact ih _ rfl (Or.inl rfl)
        · subst h2
          cases x with
          | zero => exact ih _ rfl (Or.inr (Or.inr (Or.inl rfl)))
          | succ n => exact ih _ rfl (Or.inr (Or.inl rfl))
        · subst h2
          cases x with
          | zero =>
            rcases hmiss with hm | hm
            · have hstep : stepSys a
                  ([.gotTrg ((findOneDoc st0.typesDb
                      [("name".toList, .vStr a.srcT)]).map (fun d => d.id))
                    ((findOneDoc st0.typesDb
                      [("name".toList, .vStr a.trgT)]).map (fun d => d.id))], st0) 0 =
                  ([.doneNone], st0) := by
                rw [hm]
                rfl
              rw [hstep]
              exact ih _ rfl (Or.inr (Or.inr (Or.inr rfl)))
            · cases hsv : findOneDoc st0.typesDb [("name".toList, .vStr a.srcT)] with
              | none =>
                have hstep : stepSys a
                    ([.gotTrg ((Option.none : Option MDoc).map (fun d => d.id))
                      ((findOneDoc st0.typesDb
                        [("name".toList, .vStr a.trgT)]).map (fun d => d.id))], st0) 0 =
                    ([.doneNone], st0) := rfl
                rw [hstep]
                exact ih _ rfl (Or.inr (Or.inr (Or.inr rfl)))
              | some sd =>
                have hstep : stepSys a
                    ([.gotTrg ((some sd).map (fun d => d.id))
                      ((findOneDoc st0.typesDb
                        [("name".toList, .vStr a.trgT)]).map (fun d => d.id))], st0) 0 =
                    ([.doneNone], st0) := by
                  rw [hm]
                  rfl
                rw [hstep]
                exact ih _ rfl (Or.inr (Or.inr (Or.inr rfl)))
          | succ n => exact ih _ rfl (Or.inr (Or.inr (Or.inl rfl)))
        · subst h2
          cases x with
          | zero => exact ih _ rfl (Or.inr (Or.inr (Or.inr rfl)))
          | succ n => exact ih _ rfl (Or.inr (Or.inr (Or.inr rfl)))
    exact fun σ => H σ ([.start], st0) rfl (Or.inl rfl)

/-- C9 witness: the missing-type theorem applied to a concrete empty types
collection and a concrete schedule. -/
theorem C9_merge_relation_missing_type_witness :
    (runSched (⟨("knows".toList), ("person".toList), ("place".toList), 3, 4⟩ : RelArgs)
      ([.start], (⟨[], [], [], 0, [], [], [], 9, 50⟩ : RelState)) [0, 0, 0]).1 =
      [.doneNone] ∧
    (runSched (⟨("knows".toList), ("person".toList), ("place".toList), 3, 4⟩ : RelArgs)
      ([.start], (⟨[], [], [], 0, [], [], [], 9, 50⟩ : RelState)) [0, 1, 0, 2, 0]).2 =
      (⟨[], [], [], 0, [], [], [], 9, 50⟩ : RelState) :=
  ⟨(C9_merge_relation_missing_type _ _ (by decide)).1,
   (C9_merge_relation_missing_type _ _ (by decide)).2 [0, 1, 0, 2, 0]⟩
